import Mathlib

/-!
# The `opcounter` native tracer (eth/tracers/native/opcounter.go)

A shallow embedding of the tracer: its struct, its constructor, the eight
EVMLogger callbacks, `GetResult` and `Stop`, followed by the properties
proved about them.

Conventions of the embedding.

* A Go pointer is `Option Nat`: `none` is `nil`, `some a` the address of an
  object.  The engine instances (`vm.EVM`) live in a heap `Nat → EVM`, so the
  effect of `t.env.Cancel()` on the engine is visible through every alias.
* A Go `error` is `Option String`: `none` is `nil`, `some msg` an error value.
* A run-time panic is the `error` side of `Except Panic`.
* `map[string]int` is an association list read by its first entry for a key;
  an assignment overwrites that entry or appends a new one.  `counts` is never
  the nil map: `newOpcounter` is the only place an `opcounter` is built and it
  always calls `make`.
* The counters are of Go type `int`, a signed machine integer whose width
  depends on the build (64 bits, or 32): a counter is an `Int` kept in range
  by `wrapInt`, so the increment wraps around at the largest value.
* The callbacks of one run are driven by a single thread; a `Stop` issued by
  another thread is modelled as a call placed between two callbacks.
-/

namespace Opcounter

/-! ## Types of the callback arguments -/

/-- A Go `error` value: `none` is `nil`. -/
abbrev GoError := Option String

/-- A Go byte slice (`[]byte`, `json.RawMessage`). -/
abbrev Bytes := List UInt8

/-- The Go type `common.Address`, a 20-byte array read as a number. -/
abbrev Address := Fin (2 ^ 160)

/-- The Go type `vm.OpCode`, a byte. -/
abbrev OpCode := Fin 256

/-- A Go pointer: `none` is `nil`, `some a` is the address `a`. -/
abbrev Ptr := Option Nat

/-- Run-time panics the tracer can raise. -/
inductive Panic where
  | nilDereference
  deriving DecidableEq, Repr

/-- Modelled from the spec: the engine instance `vm.EVM` behind the
ExecutionHandle (declared in core/vm, not part of this file's source).  Only
the abort request that the engine's run-abort command raises is kept. -/
structure EVM where
  abort : Bool
  deriving DecidableEq, Repr

/-- Modelled from the spec: the engine's own run-abort command `vm.EVM.Cancel`
(declared in core/vm): it raises the abort request of the instance it is
invoked on. -/
def EVM.Cancel (evm : EVM) : EVM :=
  { evm with abort := true }

/-- The engine instances, by address. -/
abbrev Heap := Nat → EVM

/-- Modelled from the spec: the call `t.env.Cancel()` of the engine's run-abort
command through the handle (`vm.EVM.Cancel`, declared in core/vm).  The abort
request lives inside the engine instance, so through a nil handle there is no
instance to write to and the call panics with a nil dereference. -/
def Heap.Cancel (evms : Heap) : Ptr → Except Panic Heap
  | none => .error .nilDereference
  | some a => .ok (fun b => if b = a then (evms a).Cancel else evms b)

/-- What the tracer takes from its platform and its libraries and is not in the
source file: the opcode name table `vm.OpCode.String`, the string quoting of
`encoding/json`, and the width in bits of the Go type `int` (64, or 32 on a
32-bit build). -/
structure Lib where
  opString : OpCode → String
  quote : String → Bytes
  intBits : Nat

/-- Half the number of values of the Go type `int`: the values are
`-intHalf, ..., intHalf - 1`. -/
def Lib.intHalf (L : Lib) : Nat :=
  2 ^ (L.intBits - 1)

/-- Arithmetic on the Go type `int` wraps around: the value of that type that
stands for the integer `x`. -/
def wrapInt (L : Lib) (x : Int) : Int :=
  (x + (L.intHalf : Int)) % (2 * (L.intHalf : Int)) - (L.intHalf : Int)

/-! ## `map[string]int` -/

/-- The Go type `map[string]int` (made, not nil). -/
abbrev Counts := List (String × Int)

/-- The comma-ok lookup `v, ok := m[key]`. -/
def mapLookup : Counts → String → Option Int
  | [], _ => none
  | (k, v) :: m, key => if k = key then some v else mapLookup m key

/-- The index expression `m[key]`: the zero value when `key` is absent. -/
def mapIndex (m : Counts) (key : String) : Int :=
  (mapLookup m key).getD 0

/-- The assignment `m[key] = v`. -/
def mapAssign : Counts → String → Int → Counts
  | [], key, v => [(key, v)]
  | (k, x) :: m, key, v => if k = key then (k, v) :: m else (k, x) :: mapAssign m key v

/-- The sum of all counts held in the map. -/
def mapTotal (m : Counts) : Int :=
  (m.map Prod.snd).sum

/-- The bytes of a text. -/
def textBytes (s : String) : Bytes :=
  s.toUTF8.data.toList

/-- Go compares strings byte by byte: whether the first comes no later than
the second. -/
def bytesLE : Bytes → Bytes → Bool
  | [], _ => true
  | _ :: _, [] => false
  | a :: as, b :: bs =>
      if a.toNat < b.toNat then true else if b.toNat < a.toNat then false else bytesLE as bs

/-- The order in which `json.Marshal` writes the members of a map: by key. -/
def keyLE {α : Type} (a b : String × α) : Prop :=
  bytesLE (textBytes a.1) (textBytes b.1) = true

instance keyLE.decidable {α : Type} : DecidableRel (keyLE : String × α → String × α → Prop) :=
  fun a b => inferInstanceAs (Decidable (bytesLE (textBytes a.1) (textBytes b.1) = true))

/-- The values a Go map handed to `json.Marshal` may hold, by the way the
encoder treats them: integers and texts, which it writes, and the kinds it
refuses (a float that is NaN or infinite, a channel, a function). -/
inductive GoValue where
  | int (v : Int)
  | string (s : String)
  | nonFinite
  | chan
  | func
  deriving DecidableEq, Repr

/-- The encoding of one value, or the error `json.Marshal` reports for it. -/
def marshalValue (L : Lib) : GoValue → Except String Bytes
  | .int v => .ok (textBytes (toString v))
  | .string s => .ok (L.quote s)
  | .nonFinite => .error "json: unsupported value"
  | .chan => .error "json: unsupported type: chan"
  | .func => .error "json: unsupported type: func"

/-- The encodings `"key":value` of the members in the order given; the first
value the encoder refuses ends the encoding with its error. -/
def marshalMembers (L : Lib) : List (String × GoValue) → Except String (List Bytes)
  | [] => .ok []
  | (k, v) :: rest =>
      match marshalValue L v with
      | .error e => .error e
      | .ok bytes =>
          match marshalMembers L rest with
          | .error e => .error e
          | .ok ms => .ok ((L.quote k ++ [0x3a] ++ bytes) :: ms)

/-- One `"key":value` member of the encoded object. -/
def encodeMember (L : Lib) (kv : String × Int) : Bytes :=
  L.quote kv.1 ++ [0x3a] ++ textBytes (toString kv.2)

/-- The members joined by commas. -/
def joinMembers : List Bytes → Bytes
  | [] => []
  | [x] => x
  | x :: y :: rest => x ++ [0x2c] ++ joinMembers (y :: rest)

/-- The Go call `json.Marshal` on a map with string keys: the members are
sorted by key, encoded, joined by commas and put in braces; an error of a
member is the error of the call. -/
def marshalMap (L : Lib) (m : List (String × GoValue)) : Except String Bytes :=
  match marshalMembers L (m.insertionSort keyLE) with
  | .error e => .error e
  | .ok ms => .ok ([0x7b] ++ joinMembers ms ++ [0x7d])

/-- The Go call `json.Marshal(t.counts)`: the map handed over holds each count
as an integer value. -/
def jsonMarshal (L : Lib) (m : Counts) : Except String Bytes :=
  marshalMap L (m.map (fun kv => (kv.1, GoValue.int kv.2)))

/-! ## The tracer -/

/-- The struct `opcounter`. -/
structure opcounter where
  env : Ptr
  counts : Counts
  interrupt : Nat
  reason : GoError
  deriving DecidableEq, Repr

/-- The tracer together with the engine instances its handle may point to. -/
structure World where
  t : opcounter
  evms : Heap

/-- The constructor `newOpcounter(ctx, cfg)`: the tracer and a nil error. -/
def newOpcounter (_ctx : Ptr) (_cfg : Bytes) : opcounter × GoError :=
  ({ env := none, counts := [], interrupt := 0, reason := none }, none)

/-- The callback `CaptureStart`. -/
def opcounter.CaptureStart (t : opcounter) (env : Ptr) (_from _to : Address) (_create : Bool)
    (_input : Bytes) (_gas : Nat) (_value : Option Int) : opcounter :=
  { t with env := env }

/-- The callback `CaptureState`. -/
def opcounter.CaptureState (L : Lib) (t : opcounter) (evms : Heap) (_pc : Nat) (op : OpCode)
    (_gas _cost : Nat) (_scope : Ptr) (_rData : Bytes) (_depth : Int) (_err : GoError) :
    Except Panic (opcounter × Heap) :=
  if t.interrupt > 0 then
    match evms.Cancel t.env with
    | .error p => .error p
    | .ok evms1 => .ok (t, evms1)
  else
    let name := L.opString op
    let counts1 := if (mapLookup t.counts name).isSome then t.counts else mapAssign t.counts name 0
    let counts2 := mapAssign counts1 name (wrapInt L (mapIndex counts1 name + 1))
    .ok ({ t with counts := counts2 }, evms)

/-- The callback `CaptureEnter`. -/
def opcounter.CaptureEnter (t : opcounter) (_op : OpCode) (_from _to : Address) (_input : Bytes)
    (_gas : Nat) (_value : Option Int) : opcounter :=
  t

/-- The callback `CaptureExit`. -/
def opcounter.CaptureExit (t : opcounter) (_output : Bytes) (_gasUsed : Nat) (_err : GoError) :
    opcounter :=
  t

/-- The callback `CaptureFault`. -/
def opcounter.CaptureFault (t : opcounter) (_pc : Nat) (_op : OpCode) (_gas _cost : Nat)
    (_scope : Ptr) (_depth : Int) (_err : GoError) : opcounter :=
  t

/-- The callback `CaptureEnd`. -/
def opcounter.CaptureEnd (t : opcounter) (_output : Bytes) (_gasUsed : Nat) (_err : GoError) :
    opcounter :=
  t

/-- The callback `CaptureTxStart`. -/
def opcounter.CaptureTxStart (t : opcounter) (_gasLimit : Nat) : opcounter :=
  t

/-- The callback `CaptureTxEnd`. -/
def opcounter.CaptureTxEnd (t : opcounter) (_restGas : Nat) : opcounter :=
  t

/-- The method `GetResult`: the returned pair (encoded tally, error) and the
tracer afterwards. -/
def opcounter.GetResult (L : Lib) (t : opcounter) : (Option Bytes × GoError) × opcounter :=
  match jsonMarshal L t.counts with
  | .error e => ((none, some e), t)
  | .ok res => ((some res, t.reason), t)

/-- The method `Stop`. -/
def opcounter.Stop (t : opcounter) (err : GoError) : opcounter :=
  let t1 := { t with reason := err }
  { t1 with interrupt := 1 }

/-! ## Sequences of calls -/

/-- The arguments of one per-step event. -/
structure StepEvent where
  pc : Nat
  op : OpCode
  gas : Nat
  cost : Nat
  scope : Ptr
  rData : Bytes
  depth : Int
  err : GoError

/-- One call on the tracer, with its arguments. -/
inductive Call where
  | CaptureStart (env : Ptr) (from_ to_ : Address) (create : Bool) (input : Bytes) (gas : Nat)
      (value : Option Int)
  | CaptureState (ev : StepEvent)
  | CaptureEnter (op : OpCode) (from_ to_ : Address) (input : Bytes) (gas : Nat)
      (value : Option Int)
  | CaptureExit (output : Bytes) (gasUsed : Nat) (err : GoError)
  | CaptureFault (pc : Nat) (op : OpCode) (gas cost : Nat) (scope : Ptr) (depth : Int)
      (err : GoError)
  | CaptureEnd (output : Bytes) (gasUsed : Nat) (err : GoError)
  | CaptureTxStart (gasLimit : Nat)
  | CaptureTxEnd (restGas : Nat)
  | GetResult
  | Stop (err : GoError)

/-- Whether the call is a `Stop`. -/
def Call.isStop : Call → Bool
  | .Stop _ => true
  | _ => false

/-- Perform one call. -/
def step (L : Lib) (w : World) : Call → Except Panic World
  | .CaptureStart env f t2 create input gas value =>
      .ok { w with t := w.t.CaptureStart env f t2 create input gas value }
  | .CaptureState ev =>
      match w.t.CaptureState L w.evms ev.pc ev.op ev.gas ev.cost ev.scope ev.rData ev.depth
          ev.err with
      | .error p => .error p
      | .ok (t1, evms1) => .ok { t := t1, evms := evms1 }
  | .CaptureEnter op f t2 input gas value =>
      .ok { w with t := w.t.CaptureEnter op f t2 input gas value }
  | .CaptureExit output gasUsed err => .ok { w with t := w.t.CaptureExit output gasUsed err }
  | .CaptureFault pc op gas cost scope depth err =>
      .ok { w with t := w.t.CaptureFault pc op gas cost scope depth err }
  | .CaptureEnd output gasUsed err => .ok { w with t := w.t.CaptureEnd output gasUsed err }
  | .CaptureTxStart gasLimit => .ok { w with t := w.t.CaptureTxStart gasLimit }
  | .CaptureTxEnd restGas => .ok { w with t := w.t.CaptureTxEnd restGas }
  | .GetResult => .ok { w with t := (w.t.GetResult L).2 }
  | .Stop err => .ok { w with t := w.t.Stop err }

/-- Perform the calls in order; a panic ends the sequence. -/
def run (L : Lib) : List Call → World → Except Panic World
  | [], w => .ok w
  | c :: cs, w =>
      match step L w c with
      | .error p => .error p
      | .ok w1 => run L cs w1

/-- A freshly constructed tracer, next to a heap of engine instances. -/
def fresh (ctx : Ptr) (cfg : Bytes) (evms : Heap) : World :=
  { t := (newOpcounter ctx cfg).1, evms := evms }

/-- The tally after one counted step: the map `CaptureState` leaves behind
when the flag is not set. -/
def counted (L : Lib) (m : Counts) (op : OpCode) : Counts :=
  let name := L.opString op
  let counts1 := if (mapLookup m name).isSome then m else mapAssign m name 0
  mapAssign counts1 name (wrapInt L (mapIndex counts1 name + 1))

/-- The tally after a sequence of counted steps. -/
def tally (L : Lib) : Counts → List StepEvent → Counts
  | m, [] => m
  | m, ev :: evs => tally L (counted L m ev.op) evs

/-- The number of events of the sequence whose opcode is named `name`. -/
def occurrences (L : Lib) (evs : List StepEvent) (name : String) : Nat :=
  evs.countP (fun ev => decide (L.opString ev.op = name))

/-- The reason supplied by the last `Stop` of the sequence, if there is one. -/
def lastStop : List Call → Option GoError
  | [] => none
  | c :: cs =>
      match lastStop cs with
      | some r => some r
      | none =>
          match c with
          | .Stop r => some r
          | _ => none

/-- The per-step events of the sequence that come before its first Stop: the
events a freshly constructed tracer is sent while its flag is not set. -/
def countedEvents : List Call → List StepEvent
  | [] => []
  | .Stop _ :: _ => []
  | .CaptureState ev :: cs => ev :: countedEvents cs
  | _ :: cs => countedEvents cs

/-- A stand-in for the opcode name table, used for examples only.  It gives
the names of the bytes 0x00 to 0x0b (STOP, ADD, MUL, ...) and, as the table
does for a byte without a name, a text with the byte in hexadecimal for the
bytes 0x0c to 0x0f; the names of the opcodes from 0x10 on are not listed, and
those bytes get the same text. -/
def sampleNames (op : OpCode) : String :=
  match op.val with
  | 0 => "STOP"
  | 1 => "ADD"
  | 2 => "MUL"
  | 3 => "SUB"
  | 4 => "DIV"
  | 5 => "SDIV"
  | 6 => "MOD"
  | 7 => "SMOD"
  | 8 => "ADDMOD"
  | 9 => "MULMOD"
  | 10 => "EXP"
  | 11 => "SIGNEXTEND"
  | n => "opcode 0x" ++ String.mk (Nat.toDigits 16 n) ++ " not defined"

/-- A stand-in for the platform and the libraries, used for examples only: the
names above, a 64-bit `int`, and a quoting that puts the text between double
quotes, which is what `encoding/json` does for a text with nothing to escape,
as the opcode names are. -/
def sampleLib : Lib :=
  { opString := sampleNames, quote := fun s => [0x22] ++ textBytes s ++ [0x22], intBits := 64 }

/-- A per-step event that carries the given opcode. -/
def stepOf (op : OpCode) : StepEvent :=
  { pc := 0, op := op, gas := 0, cost := 0, scope := none, rData := [], depth := 1, err := none }

/-- A heap in which no abort has been requested. -/
def idleHeap : Heap :=
  fun _ => { abort := false }

/-! ## Lemmas on the map -/

theorem mapLookup_mapAssign (m : Counts) (k : String) (v : Int) (key : String) :
    mapLookup (mapAssign m k v) key = if k = key then some v else mapLookup m key := by
  induction m with
  | nil => simp [mapAssign, mapLookup]
  | cons e m ih =>
    obtain ⟨k0, x⟩ := e
    by_cases h0 : k0 = k
    · subst h0
      by_cases h1 : k0 = key <;> simp [mapAssign, mapLookup, h1]
    · by_cases h1 : k0 = key
      · subst h1
        have h2 : ¬ k = k0 := fun h => h0 h.symm
        simp [mapAssign, mapLookup, h0, h2]
      · simp [mapAssign, mapLookup, h0, h1, ih]

theorem mapTotal_mapAssign (m : Counts) (k : String) (v : Int) :
    mapTotal (mapAssign m k v) = mapTotal m - mapIndex m k + v := by
  induction m with
  | nil => simp [mapAssign, mapTotal, mapIndex, mapLookup]
  | cons e m ih =>
    obtain ⟨k0, x⟩ := e
    by_cases h0 : k0 = k
    · simp [mapAssign, mapTotal, mapIndex, mapLookup, h0]
      ring
    · have ih1 : (List.map Prod.snd (mapAssign m k v)).sum
          = (List.map Prod.snd m).sum - (mapLookup m k).getD 0 + v := ih
      simp [mapAssign, mapTotal, mapIndex, mapLookup, h0, ih1]
      ring

/-! ## Lemmas on the machine integer -/

theorem intHalf_pos (L : Lib) : (0 : Int) < (L.intHalf : Int) := by
  have h : 0 < L.intHalf := Nat.two_pow_pos _
  exact_mod_cast h

theorem wrapInt_eq (L : Lib) (x : Int) (h1 : -(L.intHalf : Int) ≤ x)
    (h2 : x < (L.intHalf : Int)) : wrapInt L x = x := by
  unfold wrapInt
  rw [Int.emod_eq_of_lt (by omega) (by omega)]
  omega

theorem wrapInt_wrapInt_add (L : Lib) (x y : Int) :
    wrapInt L (wrapInt L x + y) = wrapInt L (x + y) := by
  unfold wrapInt
  have e1 : (x + (L.intHalf : Int)) % (2 * (L.intHalf : Int)) - (L.intHalf : Int) + y
      + (L.intHalf : Int) = (x + (L.intHalf : Int)) % (2 * (L.intHalf : Int)) + y := by ring
  have e2 : x + (L.intHalf : Int) + y = x + y + (L.intHalf : Int) := by ring
  rw [e1, Int.emod_add_emod, e2]

/-! ## Lemmas on the tally -/

theorem mapLookup_counted (L : Lib) (m : Counts) (op : OpCode) (key : String) :
    mapLookup (counted L m op) key
      = if L.opString op = key then some (wrapInt L (mapIndex m key + 1))
        else mapLookup m key := by
  unfold counted
  by_cases hk : L.opString op = key
  · subst hk
    cases hm : mapLookup m (L.opString op) with
    | none => simp [mapLookup_mapAssign, mapIndex, hm]
    | some v => simp [mapLookup_mapAssign, mapIndex, hm]
  · cases hm : mapLookup m (L.opString op) with
    | none => simp [mapLookup_mapAssign, hk, hm]
    | some v => simp [mapLookup_mapAssign, hk, hm]

theorem mapTotal_counted (L : Lib) (m : Counts) (op : OpCode) :
    mapTotal (counted L m op)
      = mapTotal m - mapIndex m (L.opString op)
        + wrapInt L (mapIndex m (L.opString op) + 1) := by
  unfold counted
  cases hm : mapLookup m (L.opString op) with
  | none =>
    simp [mapTotal_mapAssign, mapIndex, mapLookup_mapAssign, hm]
  | some v =>
    simp [mapTotal_mapAssign, mapIndex, hm]

theorem mapIndex_counted (L : Lib) (m : Counts) (op : OpCode) (key : String) :
    mapIndex (counted L m op) key
      = if L.opString op = key then wrapInt L (mapIndex m key + 1) else mapIndex m key := by
  unfold mapIndex
  rw [mapLookup_counted]
  by_cases hk : L.opString op = key <;> simp [hk, mapIndex]

theorem occurrences_cons (L : Lib) (ev : StepEvent) (evs : List StepEvent) (key : String) :
    occurrences L (ev :: evs) key
      = occurrences L evs key + if L.opString ev.op = key then 1 else 0 := by
  unfold occurrences
  rw [List.countP_cons]
  by_cases hk : L.opString ev.op = key <;> simp [hk]

theorem occurrences_le_length (L : Lib) (evs : List StepEvent) (key : String) :
    occurrences L evs key ≤ evs.length :=
  List.countP_le_length _

/-- The entry of a kind after a sequence of counted steps: untouched if the
kind does not occur, and else the old count plus the number of occurrences,
wrapped into the range of `int`. -/
theorem mapLookup_tally (L : Lib) (evs : List StepEvent) (m : Counts) (key : String) :
    mapLookup (tally L m evs) key
      = if occurrences L evs key = 0 then mapLookup m key
        else some (wrapInt L (mapIndex m key + occurrences L evs key)) := by
  induction evs generalizing m with
  | nil => simp [tally, occurrences]
  | cons ev evs ih =>
    rw [tally, ih, occurrences_cons, mapLookup_counted, mapIndex_counted]
    by_cases hk : L.opString ev.op = key
    · by_cases h0 : occurrences L evs key = 0
      · simp [hk, h0]
      · simp only [hk, h0, if_true, if_false, Nat.add_eq_zero, one_ne_zero, and_false,
          Option.some.injEq]
        rw [wrapInt_wrapInt_add]
        congr 1
        push_cast
        ring
    · by_cases h0 : occurrences L evs key = 0 <;> simp [hk, h0]

theorem mapIndex_tally (L : Lib) (evs : List StepEvent) (m : Counts) (key : String) :
    mapIndex (tally L m evs) key
      = if occurrences L evs key = 0 then mapIndex m key
        else wrapInt L (mapIndex m key + occurrences L evs key) := by
  unfold mapIndex
  rw [mapLookup_tally]
  by_cases h0 : occurrences L evs key = 0 <;> simp [h0, mapIndex]

/-- While no count reaches the largest value of `int`, every counted step adds
one to the sum of the counts. -/
theorem mapTotal_tally (L : Lib) (evs : List StepEvent) (m : Counts) (B : Nat)
    (hB : ∀ key, 0 ≤ mapIndex m key ∧ mapIndex m key ≤ (B : Int))
    (hlen : B + evs.length < L.intHalf) :
    mapTotal (tally L m evs) = mapTotal m + evs.length := by
  induction evs generalizing m B with
  | nil => simp [tally]
  | cons ev evs ih =>
    have hpos := intHalf_pos L
    have hlen1 : (B : Int) + ((evs.length : Int) + 1) < (L.intHalf : Int) := by
      have := hlen
      simp only [List.length_cons] at this
      exact_mod_cast this
    have hw : ∀ key, wrapInt L (mapIndex m key + 1) = mapIndex m key + 1 := by
      intro key
      have := hB key
      have h0 : (0 : Int) ≤ (evs.length : Int) := Int.natCast_nonneg _
      exact wrapInt_eq L _ (by omega) (by omega)
    have hB1 : ∀ key, 0 ≤ mapIndex (counted L m ev.op) key
        ∧ mapIndex (counted L m ev.op) key ≤ ((B + 1 : Nat) : Int) := by
      intro key
      have := hB key
      rw [mapIndex_counted]
      by_cases hk : L.opString ev.op = key
      · simp only [hk, if_true, hw key]
        push_cast
        omega
      · simp only [hk, if_false]
        push_cast
        omega
    have hlen2 : B + 1 + evs.length < L.intHalf := by
      have := hlen
      simp only [List.length_cons] at this
      omega
    rw [tally, ih (counted L m ev.op) (B + 1) hB1 hlen2, mapTotal_counted, hw]
    simp only [List.length_cons]
    push_cast
    ring

/-! ## Lemmas on the encoding -/

/-- The members of a tally are all integers, so each of them is encoded. -/
theorem marshalMembers_ints (L : Lib) (m : Counts) :
    marshalMembers L (m.map (fun kv => (kv.1, GoValue.int kv.2)))
      = .ok (m.map (encodeMember L)) := by
  induction m with
  | nil => rfl
  | cons kv m ih => simp [marshalMembers, marshalValue, ih, encodeMember]

theorem insertionSort_ints (m : Counts) :
    (m.map (fun kv => (kv.1, GoValue.int kv.2))).insertionSort keyLE
      = (m.insertionSort keyLE).map (fun kv => (kv.1, GoValue.int kv.2)) :=
  (List.map_insertionSort keyLE keyLE (fun kv => (kv.1, GoValue.int kv.2)) m
    (fun _ _ _ _ => Iff.rfl)).symm

/-- The call `json.Marshal(t.counts)` succeeds, and what it returns. -/
theorem jsonMarshal_eq (L : Lib) (m : Counts) :
    jsonMarshal L m
      = .ok ([0x7b] ++ joinMembers ((m.insertionSort keyLE).map (encodeMember L)) ++ [0x7d]) := by
  unfold jsonMarshal marshalMap
  rw [insertionSort_ints, marshalMembers_ints]

theorem GetResult_eq (L : Lib) (t : opcounter) :
    t.GetResult L
      = ((some ([0x7b] ++ joinMembers ((t.counts.insertionSort keyLE).map (encodeMember L))
            ++ [0x7d]), t.reason), t) := by
  unfold opcounter.GetResult
  rw [jsonMarshal_eq]

theorem GetResult_snd (L : Lib) (t : opcounter) : (t.GetResult L).2 = t := by
  rw [GetResult_eq]

theorem GetResult_reason (L : Lib) (t : opcounter) : (t.GetResult L).1.2 = t.reason := by
  rw [GetResult_eq]

theorem step_GetResult (L : Lib) (w : World) : step L w .GetResult = .ok w := by
  simp only [step, GetResult_snd]

theorem infix_joinMembers (xs : List Bytes) (x : Bytes) (h : x ∈ xs) :
    x <:+: joinMembers xs := by
  induction xs with
  | nil => simp at h
  | cons y ys ih =>
    cases ys with
    | nil =>
      simp only [List.mem_singleton] at h
      subst h
      exact List.infix_refl _
    | cons z zs =>
      rcases List.mem_cons.mp h with h1 | h1
      · subst h1
        exact ⟨[], [0x2c] ++ joinMembers (z :: zs), by simp [joinMembers]⟩
      · obtain ⟨a, b, hab⟩ := ih h1
        exact ⟨y ++ [0x2c] ++ a, b, by simp [joinMembers, ← hab]⟩

/-! ## Lemmas on the callbacks -/

theorem CaptureState_running (L : Lib) (t : opcounter) (evms : Heap) (ev : StepEvent)
    (h : t.interrupt = 0) :
    t.CaptureState L evms ev.pc ev.op ev.gas ev.cost ev.scope ev.rData ev.depth ev.err
      = .ok ({ t with counts := counted L t.counts ev.op }, evms) := by
  simp [opcounter.CaptureState, h, counted]

theorem CaptureState_cancelled (L : Lib) (t : opcounter) (evms : Heap) (ev : StepEvent)
    (a : Nat) (h : t.interrupt > 0) (he : t.env = some a) :
    t.CaptureState L evms ev.pc ev.op ev.gas ev.cost ev.scope ev.rData ev.depth ev.err
      = .ok (t, fun b => if b = a then (evms a).Cancel else evms b) := by
  simp [opcounter.CaptureState, h, he, Heap.Cancel]

theorem run_append (L : Lib) (xs ys : List Call) (w : World) :
    run L (xs ++ ys) w
      = match run L xs w with
        | .error p => .error p
        | .ok w1 => run L ys w1 := by
  induction xs generalizing w with
  | nil => simp [run]
  | cons c cs ih =>
    simp only [List.cons_append, run]
    cases step L w c with
    | error p => simp
    | ok w1 => simpa using ih w1

/-- While the flag is not set, a sequence of per-step events is counted in
full and touches nothing but the tally. -/
theorem run_steps_running (L : Lib) (evs : List StepEvent) (w : World)
    (h : w.t.interrupt = 0) :
    run L (evs.map Call.CaptureState) w
      = .ok { t := { w.t with counts := tally L w.t.counts evs }, evms := w.evms } := by
  induction evs generalizing w with
  | nil => simp [run, tally]
  | cons ev evs ih =>
    simp only [List.map_cons, run, step, CaptureState_running L w.t w.evms ev h]
    exact (ih { t := { w.t with counts := counted L w.t.counts ev.op }, evms := w.evms } h).trans
      (by simp [tally])

/-- Once the flag is set and a handle is captured, a sequence of per-step
events completes and leaves the tracer as it was. -/
theorem run_steps_cancelled (L : Lib) (evs : List StepEvent) (w : World) (a : Nat)
    (h : w.t.interrupt > 0) (he : w.t.env = some a) :
    ∃ evms1, run L (evs.map Call.CaptureState) w = .ok { t := w.t, evms := evms1 } := by
  induction evs generalizing w with
  | nil => exact ⟨w.evms, by simp [run]⟩
  | cons ev evs ih =>
    simp only [List.map_cons, run, step, CaptureState_cancelled L w.t w.evms ev a h he]
    exact ih _ h he

/-- What one per-step call that returns leaves of the tracer: only the tally
can differ, and only if the flag is not set. -/
theorem CaptureState_frame (L : Lib) (t t1 : opcounter) (evms evms1 : Heap) (ev : StepEvent)
    (h : t.CaptureState L evms ev.pc ev.op ev.gas ev.cost ev.scope ev.rData ev.depth ev.err
      = .ok (t1, evms1)) :
    t1.reason = t.reason ∧ t1.interrupt = t.interrupt ∧ t1.env = t.env
      ∧ (0 < t.interrupt → t1.counts = t.counts) := by
  by_cases hi : t.interrupt = 0
  · rw [CaptureState_running L t evms ev hi] at h
    simp only [Except.ok.injEq, Prod.mk.injEq] at h
    obtain ⟨h1, _⟩ := h
    subst h1
    simp [hi]
  · have hpos : t.interrupt > 0 := Nat.pos_of_ne_zero hi
    cases he : t.env with
    | none => simp [opcounter.CaptureState, hpos, he, Heap.Cancel] at h
    | some a =>
      rw [CaptureState_cancelled L t evms ev a hpos he] at h
      simp only [Except.ok.injEq, Prod.mk.injEq] at h
      obtain ⟨h1, _⟩ := h
      subst h1
      simp [he]

/-- The reason and the flag after one call. -/
theorem step_frame (L : Lib) (w w1 : World) (c : Call) (h : step L w c = .ok w1) :
    w1.t.reason = (match c with | .Stop r => r | _ => w.t.reason)
      ∧ w1.t.interrupt = (match c with | .Stop _ => 1 | _ => w.t.interrupt)
      ∧ (0 < w.t.interrupt → w1.t.counts = w.t.counts) := by
  cases c with
  | CaptureState ev =>
    simp only [step] at h
    cases hc : w.t.CaptureState L w.evms ev.pc ev.op ev.gas ev.cost ev.scope ev.rData ev.depth
        ev.err with
    | error p => simp [hc] at h
    | ok r =>
      obtain ⟨t1, evms1⟩ := r
      simp only [hc, Except.ok.injEq] at h
      subst h
      obtain ⟨h1, h2, _, h4⟩ := CaptureState_frame L w.t t1 w.evms evms1 ev hc
      exact ⟨h1, h2, h4⟩
  | Stop r =>
    simp only [step, Except.ok.injEq] at h
    subst h
    simp [opcounter.Stop]
  | GetResult =>
    rw [step_GetResult] at h
    simp only [Except.ok.injEq] at h
    subst h
    simp
  | CaptureStart env f t2 cr inp g v =>
    simp only [step, Except.ok.injEq] at h
    subst h
    simp [opcounter.CaptureStart]
  | CaptureEnter op f t2 inp g v =>
    simp only [step, Except.ok.injEq] at h
    subst h
    simp [opcounter.CaptureEnter]
  | CaptureExit o g e =>
    simp only [step, Except.ok.injEq] at h
    subst h
    simp [opcounter.CaptureExit]
  | CaptureFault pc op g co sc d e =>
    simp only [step, Except.ok.injEq] at h
    subst h
    simp [opcounter.CaptureFault]
  | CaptureEnd o g e =>
    simp only [step, Except.ok.injEq] at h
    subst h
    simp [opcounter.CaptureEnd]
  | CaptureTxStart g =>
    simp only [step, Except.ok.injEq] at h
    subst h
    simp [opcounter.CaptureTxStart]
  | CaptureTxEnd g =>
    simp only [step, Except.ok.injEq] at h
    subst h
    simp [opcounter.CaptureTxEnd]

/-- The reason and the flag after a sequence of calls, in terms of the last
`Stop` of the sequence. -/
theorem run_reason_flag (L : Lib) (calls : List Call) (w w1 : World)
    (h : run L calls w = .ok w1) :
    w1.t.reason = (lastStop calls).getD w.t.reason
      ∧ (0 < w1.t.interrupt ↔ 0 < w.t.interrupt ∨ (lastStop calls).isSome = true) := by
  induction calls generalizing w with
  | nil =>
    simp only [run, Except.ok.injEq] at h
    subst h
    simp [lastStop]
  | cons c cs ih =>
    simp only [run] at h
    cases hs : step L w c with
    | error p => simp [hs] at h
    | ok w2 =>
      simp only [hs] at h
      obtain ⟨hr, hf⟩ := ih w2 h
      obtain ⟨sr, sf, _⟩ := step_frame L w w2 c hs
      cases hl : lastStop cs with
      | some r => simp [lastStop, hl, hr, hf]
      | none =>
        cases c <;> simp_all [lastStop]

/-- Once the flag is set it stays set and the tally stays as it is. -/
theorem run_cancelled_frame (L : Lib) (calls : List Call) (w w1 : World)
    (hflag : 0 < w.t.interrupt) (h : run L calls w = .ok w1) :
    w1.t.counts = w.t.counts ∧ 0 < w1.t.interrupt := by
  induction calls generalizing w with
  | nil =>
    simp only [run, Except.ok.injEq] at h
    subst h
    exact ⟨rfl, hflag⟩
  | cons c cs ih =>
    simp only [run] at h
    cases hs : step L w c with
    | error p => simp [hs] at h
    | ok w2 =>
      simp only [hs] at h
      obtain ⟨_, sf, sc⟩ := step_frame L w w2 c hs
      have hflag2 : 0 < w2.t.interrupt := by
        rw [sf]
        cases c <;> simp [hflag]
      obtain ⟨h1, h2⟩ := ih w2 hflag2 h
      exact ⟨h1.trans (sc hflag), h2⟩

/-! ## The tally of a run that is not stopped -/

/-- The number of ADD events in a sequence of ADD events, under the sample
names. -/
theorem occurrences_replicate_ADD (n : Nat) :
    occurrences sampleLib (List.replicate n (stepOf 1)) "ADD" = n := by
  unfold occurrences
  rw [List.countP_replicate]
  have h : sampleLib.opString (stepOf 1).op = "ADD" := rfl
  simp [h]

/-- The tally a fresh tracer holds after `n` ADD events, `n` not zero: the
number `n` wrapped into the range of `int`. -/
theorem run_replicate_ADD (n : Nat) (hn : n ≠ 0) :
    ∃ w, run sampleLib ((List.replicate n (stepOf 1)).map Call.CaptureState)
          (fresh none [] idleHeap) = .ok w
      ∧ mapLookup w.t.counts "ADD" = some (wrapInt sampleLib n) := by
  refine ⟨_, run_steps_running sampleLib _ (fresh none [] idleHeap) rfl, ?_⟩
  show mapLookup (tally sampleLib [] (List.replicate n (stepOf 1))) "ADD" = _
  rw [mapLookup_tally, occurrences_replicate_ADD]
  simp [hn, mapIndex, mapLookup]

/-- C1, as stated, fails: on a 64-bit build, 2^63 ADD events in a row are all
delivered to a fresh tracer, and the count the tally then holds for ADD is
-2^63, not the number of events: the increment of the Go `int` has wrapped
around. -/
theorem tally_wraps_after_too_many_events :
    ∃ w, run sampleLib ((List.replicate 9223372036854775808 (stepOf 1)).map Call.CaptureState)
          (fresh none [] idleHeap) = .ok w
      ∧ occurrences sampleLib (List.replicate 9223372036854775808 (stepOf 1)) "ADD"
          = 9223372036854775808
      ∧ mapLookup w.t.counts "ADD" = some (-9223372036854775808)
      ∧ mapIndex w.t.counts "ADD"
          ≠ (occurrences sampleLib (List.replicate 9223372036854775808 (stepOf 1)) "ADD" : Int)
          := by
  obtain ⟨w, hrun, hl⟩ := run_replicate_ADD 9223372036854775808 (by decide)
  have hw : wrapInt sampleLib ((9223372036854775808 : Nat) : Int) = -9223372036854775808 := by
    decide
  rw [hw] at hl
  refine ⟨w, hrun, occurrences_replicate_ADD _, hl, ?_⟩
  rw [occurrences_replicate_ADD]
  simp [mapIndex, hl]

/-- C1, amended: per-step events applied to a freshly constructed tracer with
no Stop in between are all delivered.  For every instruction kind (the name
that `op.String()` gives) the tally then holds the number of events of that
kind reduced to the range of Go's `int` by wrap-around, and a kind that never
occurs has no entry; so for every kind that occurs fewer than 2^(w-1) times,
`w` the width of `int`, the count is exactly the number of events of that kind
(and reads as zero for a kind that never occurs). -/
theorem tally_counts_every_event (L : Lib) (ctx : Ptr) (cfg : Bytes) (evms : Heap)
    (evs : List StepEvent) :
    ∃ w, run L (evs.map Call.CaptureState) (fresh ctx cfg evms) = .ok w
      ∧ ∀ name : String,
          mapLookup w.t.counts name
              = (if occurrences L evs name = 0 then none
                 else some (wrapInt L (occurrences L evs name : Int)))
            ∧ (occurrences L evs name < L.intHalf →
                mapLookup w.t.counts name
                    = (if occurrences L evs name = 0 then none
                       else some (occurrences L evs name : Int))
                  ∧ mapIndex w.t.counts name = (occurrences L evs name : Int)) := by
  refine ⟨_, run_steps_running L evs (fresh ctx cfg evms) rfl, ?_⟩
  intro name
  have hl : mapLookup (tally L [] evs) name
      = (if occurrences L evs name = 0 then none
         else some (wrapInt L (occurrences L evs name : Int))) := by
    rw [mapLookup_tally]
    simp [mapIndex, mapLookup]
  refine ⟨hl, ?_⟩
  intro hlt
  have hw : wrapInt L (occurrences L evs name : Int) = (occurrences L evs name : Int) := by
    have h1 : ((occurrences L evs name : Nat) : Int) < (L.intHalf : Int) := by exact_mod_cast hlt
    have h2 : (0 : Int) ≤ ((occurrences L evs name : Nat) : Int) := Int.natCast_nonneg _
    have h3 := intHalf_pos L
    exact wrapInt_eq L _ (by omega) h1
  have hl2 : mapLookup (tally L [] evs) name
      = (if occurrences L evs name = 0 then none
         else some (occurrences L evs name : Int)) := by
    rw [hl, hw]
  refine ⟨hl2, ?_⟩
  show mapIndex (tally L [] evs) name = _
  unfold mapIndex
  rw [hl2]
  by_cases h0 : occurrences L evs name = 0 <;> simp [h0]

/-- The events ADD, ADD, MUL on a 64-bit build: ADD occurs twice, which is
below 2^63, so the hypothesis on the kind holds and the theorem gives its
count. -/
theorem tally_counts_every_event_witness :
    occurrences sampleLib [stepOf 1, stepOf 1, stepOf 2] "ADD" < sampleLib.intHalf
      ∧ ∃ w, run sampleLib ([stepOf 1, stepOf 1, stepOf 2].map Call.CaptureState)
            (fresh none [] idleHeap) = .ok w
          ∧ mapIndex w.t.counts "ADD"
              = (occurrences sampleLib [stepOf 1, stepOf 1, stepOf 2] "ADD" : Int) := by
  refine ⟨by decide, ?_⟩
  obtain ⟨w, hrun, h⟩ :=
    tally_counts_every_event sampleLib none [] idleHeap [stepOf 1, stepOf 1, stepOf 2]
  exact ⟨w, hrun, ((h "ADD").2 (by decide)).2⟩

/-- The events ADD, ADD, MUL leave the tally ADD:2, MUL:1. -/
theorem tally_ADD_ADD_MUL :
    ∃ w, run sampleLib [.CaptureState (stepOf 1), .CaptureState (stepOf 1),
        .CaptureState (stepOf 2)] (fresh none [] idleHeap) = .ok w
      ∧ w.t.counts = [("ADD", 2), ("MUL", 1)] :=
  ⟨_, rfl, rfl⟩

/-! ## Stop -/

/-- C2, as stated, fails: after Stop("execution timeout") and then
Stop("shutdown") on a fresh tracer the state is not the one the first Stop
alone produces, and the reason that is kept and returned by GetResult is the
second one. -/
theorem second_Stop_replaces_reason :
    ((newOpcounter none []).1.Stop (some "execution timeout")).Stop (some "shutdown")
        ≠ (newOpcounter none []).1.Stop (some "execution timeout")
      ∧ (((newOpcounter none []).1.Stop (some "execution timeout")).Stop (some "shutdown")).reason
        = some "shutdown"
      ∧ ((((newOpcounter none []).1.Stop (some "execution timeout")).Stop
          (some "shutdown")).GetResult sampleLib).1.2 = some "shutdown" := by
  refine ⟨by decide, rfl, rfl⟩

/-- C2, amended: Stop can be repeated and the last writer wins.  For every
tracer state and every two reasons, Stop(r1) followed by Stop(r2) leaves
exactly the state that Stop(r2) alone produces: the flag is set, the tally and
the handle are as before, and the reason kept and returned by GetResult is r2.
Repeating a Stop with the same reason changes nothing. -/
theorem Stop_last_writer_wins (L : Lib) (t : opcounter) (r1 r2 : GoError) :
    (t.Stop r1).Stop r2 = t.Stop r2
      ∧ ((t.Stop r1).Stop r2).reason = r2
      ∧ (((t.Stop r1).Stop r2).GetResult L).1.2 = r2
      ∧ ((t.Stop r1).Stop r2).interrupt = 1
      ∧ ((t.Stop r1).Stop r2).counts = t.counts
      ∧ ((t.Stop r1).Stop r2).env = t.env
      ∧ (t.Stop r1).Stop r1 = t.Stop r1 := by
  refine ⟨rfl, rfl, ?_, rfl, rfl, rfl, rfl⟩
  rw [GetResult_reason]
  rfl

/-- C3, as stated, fails: Stop(nil) on a fresh tracer sets the flag and leaves
the reason empty. -/
theorem Stop_nil_sets_flag_without_reason :
    ∃ w, run sampleLib [.Stop none] (fresh none [] idleHeap) = .ok w
      ∧ 0 < w.t.interrupt ∧ w.t.reason = none
      ∧ ¬ (w.t.reason ≠ none ↔ 0 < w.t.interrupt) :=
  ⟨_, rfl, by decide, rfl, by decide⟩

/-- C3, amended: in every state reached from the constructor by callbacks and
Stop calls, the flag is set exactly when Stop has been called, the stored
reason is the one the most recent Stop supplied (empty before any Stop), so
the reason is non-empty exactly when the most recent Stop supplied a non-nil
reason, and a non-empty reason implies that the flag is set. -/
theorem reason_is_last_Stop_reason (L : Lib) (ctx : Ptr) (cfg : Bytes) (evms : Heap)
    (calls : List Call) (w : World) (h : run L calls (fresh ctx cfg evms) = .ok w) :
    (0 < w.t.interrupt ↔ (lastStop calls).isSome = true)
      ∧ w.t.reason = (lastStop calls).getD none
      ∧ (w.t.reason ≠ none ↔ ∃ msg, lastStop calls = some (some msg))
      ∧ (w.t.reason ≠ none → 0 < w.t.interrupt) := by
  obtain ⟨hr, hf⟩ := run_reason_flag L calls (fresh ctx cfg evms) w h
  have hf1 : 0 < w.t.interrupt ↔ (lastStop calls).isSome = true := by
    rw [hf]
    simp [fresh, newOpcounter]
  have hr1 : w.t.reason = (lastStop calls).getD none := hr
  refine ⟨hf1, hr1, ?_, ?_⟩
  · rw [hr1]
    cases hl : lastStop calls with
    | none => simp
    | some r => cases r <;> simp
  · rw [hr1, hf1]
    cases hl : lastStop calls with
    | none => simp
    | some r => simp

/-- The sequence run-start, ADD, Stop("execution timeout"), MUL reaches a state
whose flag is set and whose reason is the one supplied: the hypothesis holds
and the theorem applies. -/
theorem reason_is_last_Stop_reason_witness :
    run sampleLib [.CaptureStart (some 0) 0 0 false [] 0 none, .CaptureState (stepOf 1),
          .Stop (some "execution timeout"), .CaptureState (stepOf 2)] (fresh none [] idleHeap)
        = .ok { t := { env := some 0, counts := [("ADD", 1)], interrupt := 1,
                       reason := some "execution timeout" },
                evms := fun b => if b = 0 then (idleHeap 0).Cancel else idleHeap b }
      ∧ (0 < 1 ↔ (lastStop [.CaptureStart (some 0) 0 0 false [] 0 none, .CaptureState (stepOf 1),
          .Stop (some "execution timeout"), .CaptureState (stepOf 2)]).isSome = true)
      ∧ some "execution timeout"
          = (lastStop [.CaptureStart (some 0) 0 0 false [] 0 none, .CaptureState (stepOf 1),
              .Stop (some "execution timeout"), .CaptureState (stepOf 2)]).getD none
      ∧ ((some "execution timeout" : GoError) ≠ none
          ↔ ∃ msg, lastStop [.CaptureStart (some 0) 0 0 false [] 0 none,
              .CaptureState (stepOf 1), .Stop (some "execution timeout"),
              .CaptureState (stepOf 2)] = some (some msg))
      ∧ ((some "execution timeout" : GoError) ≠ none → 0 < 1) :=
  ⟨rfl,
    reason_is_last_Stop_reason sampleLib none [] idleHeap
      [.CaptureStart (some 0) 0 0 false [] 0 none, .CaptureState (stepOf 1),
        .Stop (some "execution timeout"), .CaptureState (stepOf 2)]
      { t := { env := some 0, counts := [("ADD", 1)], interrupt := 1,
               reason := some "execution timeout" },
        evms := fun b => if b = 0 then (idleHeap 0).Cancel else idleHeap b }
      rfl⟩

/-! ## After cancellation -/

/-- C4: once the flag is set the tally is never mutated again.  For every
state whose flag is set and every later sequence of callbacks, Stop calls and
GetResult calls that the tracer gets through, the tally afterwards is the
tally before (and the flag is still set). -/
theorem tally_frozen_once_cancelled (L : Lib) (w : World) (calls : List Call) (w1 : World)
    (hflag : 0 < w.t.interrupt) (h : run L calls w = .ok w1) :
    w1.t.counts = w.t.counts ∧ 0 < w1.t.interrupt :=
  run_cancelled_frame L calls w w1 hflag h

/-- A cancelled tracer holding ADD:1 is sent a new run-start, two per-step
events, a scope enter and exit, a fault, a run end, a second Stop and a
GetResult: the tally is still ADD:1. -/
theorem tally_frozen_once_cancelled_witness :
    0 < (1 : Nat)
      ∧ run sampleLib
          [.CaptureTxStart 21000, .CaptureStart (some 0) 0 0 false [] 0 none,
            .CaptureState (stepOf 1), .CaptureEnter 241 0 0 [] 0 none,
            .CaptureState (stepOf 2), .CaptureExit [] 0 none,
            .CaptureFault 0 1 0 0 none 1 (some "out of gas"), .CaptureEnd [] 0 none,
            .Stop none, .GetResult, .CaptureTxEnd 0]
          { t := { env := some 0, counts := [("ADD", 1)], interrupt := 1,
                   reason := some "execution timeout" },
            evms := idleHeap }
        = .ok { t := { env := some 0, counts := [("ADD", 1)], interrupt := 1, reason := none },
                evms := fun b => if b = 0 then
                    ((fun b => if b = 0 then (idleHeap 0).Cancel else idleHeap b) 0).Cancel
                  else (fun b => if b = 0 then (idleHeap 0).Cancel else idleHeap b) b }
      ∧ ([("ADD", 1)] : Counts) = [("ADD", 1)] ∧ 0 < (1 : Nat) :=
  ⟨by decide, rfl,
    tally_frozen_once_cancelled sampleLib
      { t := { env := some 0, counts := [("ADD", 1)], interrupt := 1,
               reason := some "execution timeout" },
        evms := idleHeap }
      [.CaptureTxStart 21000, .CaptureStart (some 0) 0 0 false [] 0 none,
        .CaptureState (stepOf 1), .CaptureEnter 241 0 0 [] 0 none,
        .CaptureState (stepOf 2), .CaptureExit [] 0 none,
        .CaptureFault 0 1 0 0 none 1 (some "out of gas"), .CaptureEnd [] 0 none,
        .Stop none, .GetResult, .CaptureTxEnd 0]
      { t := { env := some 0, counts := [("ADD", 1)], interrupt := 1, reason := none },
        evms := fun b => if b = 0 then
            ((fun b => if b = 0 then (idleHeap 0).Cancel else idleHeap b) 0).Cancel
          else (fun b => if b = 0 then (idleHeap 0).Cancel else idleHeap b) b }
      (by decide) rfl⟩

/-- While the flag is not set, a call other than Stop returns, and leaves the
flag unset and the reason as it was. -/
theorem step_running (L : Lib) (w : World) (c : Call) (h0 : w.t.interrupt = 0)
    (hc : c.isStop = false) :
    ∃ w1, step L w c = .ok w1 ∧ w1.t.interrupt = 0 ∧ w1.t.reason = w.t.reason := by
  cases c with
  | CaptureState ev =>
    exact ⟨{ t := { w.t with counts := counted L w.t.counts ev.op }, evms := w.evms },
      by simp only [step, CaptureState_running L w.t w.evms ev h0], h0, rfl⟩
  | Stop r => simp [Call.isStop] at hc
  | GetResult => exact ⟨w, step_GetResult L w, h0, rfl⟩
  | CaptureStart env f t2 cr inp g v => exact ⟨_, rfl, h0, rfl⟩
  | CaptureEnter op f t2 inp g v => exact ⟨_, rfl, h0, rfl⟩
  | CaptureExit o g e => exact ⟨_, rfl, h0, rfl⟩
  | CaptureFault pc op g co sc d e => exact ⟨_, rfl, h0, rfl⟩
  | CaptureEnd o g e => exact ⟨_, rfl, h0, rfl⟩
  | CaptureTxStart g => exact ⟨_, rfl, h0, rfl⟩
  | CaptureTxEnd g => exact ⟨_, rfl, h0, rfl⟩

/-- While the flag is not set, a sequence of calls without a Stop runs to its
end, and leaves the flag unset and the reason as it was. -/
theorem run_running (L : Lib) (calls : List Call) (w : World) (h0 : w.t.interrupt = 0)
    (hc : ∀ c ∈ calls, c.isStop = false) :
    ∃ w1, run L calls w = .ok w1 ∧ w1.t.interrupt = 0 ∧ w1.t.reason = w.t.reason := by
  induction calls generalizing w with
  | nil => exact ⟨w, rfl, h0, rfl⟩
  | cons c cs ih =>
    obtain ⟨w2, hs, hi, hr⟩ := step_running L w c h0 (hc c (List.mem_cons_self c cs))
    obtain ⟨w3, hrun, hi3, hr3⟩ := ih w2 hi (fun d hd => hc d (List.mem_cons_of_mem c hd))
    exact ⟨w3, by simp only [run, hs, hrun], hi3, hr3.trans hr⟩

/-- C5: Stop(r) on a freshly constructed tracer, before any per-step event,
leaves the tally empty and makes GetResult return r as its reason.  This stays
so after any number of later per-step events delivered with a captured engine
handle, whether the run-start that captures the handle comes after the Stop or
before it: the calls all return, the tally is still empty and GetResult still
returns r. -/
theorem Stop_before_any_step (L : Lib) (ctx : Ptr) (cfg : Bytes) (evms : Heap) (r : GoError)
    (a : Nat) (from_ to_ : Address) (create : Bool) (input : Bytes) (gas : Nat)
    (value : Option Int) (evs : List StepEvent) :
    ((newOpcounter ctx cfg).1.Stop r).counts = []
      ∧ (((newOpcounter ctx cfg).1.Stop r).GetResult L).1.2 = r
      ∧ (∃ w, run L (.Stop r :: .CaptureStart (some a) from_ to_ create input gas value
              :: evs.map Call.CaptureState) (fresh ctx cfg evms) = .ok w
            ∧ w.t.counts = [] ∧ (w.t.GetResult L).1.2 = r)
      ∧ (∃ w, run L (.CaptureStart (some a) from_ to_ create input gas value :: .Stop r
              :: evs.map Call.CaptureState) (fresh ctx cfg evms) = .ok w
            ∧ w.t.counts = [] ∧ (w.t.GetResult L).1.2 = r) := by
  refine ⟨rfl, by rw [GetResult_reason]; rfl, ?_, ?_⟩
  · obtain ⟨evms1, h⟩ := run_steps_cancelled L evs
      { t := ((newOpcounter ctx cfg).1.Stop r).CaptureStart (some a) from_ to_ create input gas
          value, evms := evms } a Nat.one_pos rfl
    exact ⟨World.mk
      (((newOpcounter ctx cfg).1.Stop r).CaptureStart (some a) from_ to_ create input gas value)
      evms1, by simpa only [run, step] using h, rfl, by rw [GetResult_reason]; rfl⟩
  · obtain ⟨evms1, h⟩ := run_steps_cancelled L evs
      { t := ((newOpcounter ctx cfg).1.CaptureStart (some a) from_ to_ create input gas
          value).Stop r, evms := evms } a Nat.one_pos rfl
    exact ⟨World.mk
      (((newOpcounter ctx cfg).1.CaptureStart (some a) from_ to_ create input gas value).Stop r)
      evms1, by simpa only [run, step] using h, rfl, by rw [GetResult_reason]; rfl⟩

/-- The tally after a run-start with the handle 0, `n` ADD events, `n` not
zero, and a Stop: the count of ADD is `n` wrapped into the range of `int`. -/
theorem run_start_replicate_ADD_Stop (n : Nat) (hn : n ≠ 0) (r : GoError) :
    ∃ w, run sampleLib (.CaptureStart (some 0) 0 0 false [] 0 none
          :: ((List.replicate n (stepOf 1)).map Call.CaptureState ++ [.Stop r]))
        (fresh none [] idleHeap) = .ok w
      ∧ mapLookup w.t.counts "ADD" = some (wrapInt sampleLib n) := by
  have h1 := run_steps_running sampleLib (List.replicate n (stepOf 1))
    (World.mk ((newOpcounter none []).1.CaptureStart (some 0) 0 0 false [] 0 none) idleHeap) rfl
  refine ⟨World.mk
    (opcounter.Stop
      { (newOpcounter none []).1.CaptureStart (some 0) 0 0 false [] 0 none
        with counts := tally sampleLib [] (List.replicate n (stepOf 1)) } r)
    idleHeap, ?_, ?_⟩
  · simp only [run, step, fresh, run_append]
    rw [h1]
    rfl
  · show mapLookup (tally sampleLib [] (List.replicate n (stepOf 1))) "ADD" = _
    rw [mapLookup_tally, occurrences_replicate_ADD]
    simp [hn, mapIndex, mapLookup]

/-- C6, as stated, fails.  A run-start that hands over a nil handle, then
Stop after none of one event, then the event: the callback panics, so there is
no tally and no result.  And on a 64-bit build, with a handle captured, 2^63
ADD events followed by Stop (K = N = 2^63): all calls return and the count
held for ADD is -2^63, not the 2^63 occurrences among the first K events. -/
theorem Stop_after_K_steps_fails :
    run sampleLib (.CaptureStart none 0 0 false [] 0 none
          :: (([stepOf 1].take 0).map Call.CaptureState
              ++ .Stop (some "execution timeout") :: ([stepOf 1].drop 0).map Call.CaptureState))
        (fresh none [] idleHeap) = .error .nilDereference
      ∧ ∃ w, run sampleLib (.CaptureStart (some 0) 0 0 false [] 0 none
            :: ((List.replicate 9223372036854775808 (stepOf 1)).map Call.CaptureState
                ++ [.Stop (some "execution timeout")]))
          (fresh none [] idleHeap) = .ok w
        ∧ occurrences sampleLib (List.replicate 9223372036854775808 (stepOf 1)) "ADD"
            = 9223372036854775808
        ∧ mapLookup w.t.counts "ADD" = some (-9223372036854775808) := by
  refine ⟨rfl, ?_⟩
  obtain ⟨w, hrun, hl⟩ :=
    run_start_replicate_ADD_Stop 9223372036854775808 (by decide) (some "execution timeout")
  have hw : wrapInt sampleLib ((9223372036854775808 : Nat) : Int) = -9223372036854775808 := by
    decide
  rw [hw] at hl
  exact ⟨w, hrun, occurrences_replicate_ADD _, hl⟩

/-- C6, amended: a run-start captures a non-nil engine handle, the first K of N
per-step events are delivered, K not above the largest value of Go's `int`
(K below 2^(w-1), `w` the width of `int`), then Stop(r) is called, then the
remaining N-K events are delivered.  All calls return; each kind is counted as
often as it occurs among the first K events (a kind absent from them has no
entry), the counts add up to exactly K, and GetResult returns r as its
reason. -/
theorem Stop_after_K_steps (L : Lib) (ctx : Ptr) (cfg : Bytes) (evms : Heap) (a : Nat)
    (from_ to_ : Address) (create : Bool) (input : Bytes) (gas : Nat) (value : Option Int)
    (evs : List StepEvent) (K : Nat) (r : GoError) (hK : K ≤ evs.length)
    (hint : K < L.intHalf) :
    ∃ w, run L (.CaptureStart (some a) from_ to_ create input gas value
          :: ((evs.take K).map Call.CaptureState
              ++ .Stop r :: (evs.drop K).map Call.CaptureState)) (fresh ctx cfg evms) = .ok w
      ∧ (∀ name : String,
          mapLookup w.t.counts name
              = (if occurrences L (evs.take K) name = 0 then none
                 else some (occurrences L (evs.take K) name : Int))
            ∧ mapIndex w.t.counts name = (occurrences L (evs.take K) name : Int))
      ∧ mapTotal w.t.counts = (K : Int)
      ∧ (w.t.GetResult L).1.2 = r := by
  have h1 := run_steps_running L (evs.take K)
    { t := (newOpcounter ctx cfg).1.CaptureStart (some a) from_ to_ create input gas value,
      evms := evms } rfl
  obtain ⟨evms1, h2⟩ := run_steps_cancelled L (evs.drop K)
    { t := ({ (newOpcounter ctx cfg).1.CaptureStart (some a) from_ to_ create input gas value
              with counts := tally L [] (evs.take K) }).Stop r,
      evms := evms } a Nat.one_pos rfl
  have hlen : (evs.take K).length = K := by
    rw [List.length_take, Nat.min_eq_left hK]
  refine ⟨World.mk
    (opcounter.Stop
      { (newOpcounter ctx cfg).1.CaptureStart (some a) from_ to_ create input gas value
        with counts := tally L [] (evs.take K) } r)
    evms1, ?_, ?_, ?_, ?_⟩
  · simp only [run, step, fresh, run_append]
    rw [h1]
    simpa only [run, step] using h2
  · intro name
    have hocc : occurrences L (evs.take K) name < L.intHalf :=
      lt_of_le_of_lt ((occurrences_le_length L (evs.take K) name).trans (le_of_eq hlen)) hint
    have hw : wrapInt L (occurrences L (evs.take K) name : Int)
        = (occurrences L (evs.take K) name : Int) := by
      have h3 : ((occurrences L (evs.take K) name : Nat) : Int) < (L.intHalf : Int) := by
        exact_mod_cast hocc
      have h4 : (0 : Int) ≤ ((occurrences L (evs.take K) name : Nat) : Int) :=
        Int.natCast_nonneg _
      have h5 := intHalf_pos L
      exact wrapInt_eq L _ (by omega) h3
    have hl : mapLookup (tally L [] (evs.take K)) name
        = (if occurrences L (evs.take K) name = 0 then none
           else some (occurrences L (evs.take K) name : Int)) := by
      rw [mapLookup_tally]
      simp [mapIndex, mapLookup, hw]
    refine ⟨hl, ?_⟩
    show mapIndex (tally L [] (evs.take K)) name = _
    unfold mapIndex
    rw [hl]
    by_cases h0 : occurrences L (evs.take K) name = 0 <;> simp [h0]
  · show mapTotal (tally L [] (evs.take K)) = _
    rw [mapTotal_tally L (evs.take K) [] 0 (fun key => by simp [mapIndex, mapLookup])
      (by rw [hlen]; omega), hlen]
    simp [mapTotal]
  · rw [GetResult_reason]
    rfl

/-- Of the events ADD, MUL, ADD the first two are delivered before the Stop, on
a 64-bit build: the hypotheses hold and the theorem applies. -/
theorem Stop_after_K_steps_witness :
    2 ≤ [stepOf 1, stepOf 2, stepOf 1].length
      ∧ 2 < sampleLib.intHalf
      ∧ ∃ w, run sampleLib (.CaptureStart (some 0) 0 0 false [] 0 none
            :: (([stepOf 1, stepOf 2, stepOf 1].take 2).map Call.CaptureState
                ++ .Stop (some "execution timeout")
                  :: ([stepOf 1, stepOf 2, stepOf 1].drop 2).map Call.CaptureState))
            (fresh none [] idleHeap) = .ok w
          ∧ (∀ name : String,
              mapLookup w.t.counts name
                  = (if occurrences sampleLib ([stepOf 1, stepOf 2, stepOf 1].take 2) name = 0
                     then none
                     else some (occurrences sampleLib ([stepOf 1, stepOf 2, stepOf 1].take 2)
                        name : Int))
                ∧ mapIndex w.t.counts name
                  = (occurrences sampleLib ([stepOf 1, stepOf 2, stepOf 1].take 2) name : Int))
          ∧ mapTotal w.t.counts = ((2 : Nat) : Int)
          ∧ (w.t.GetResult sampleLib).1.2 = some "execution timeout" :=
  ⟨by decide, by decide,
    Stop_after_K_steps sampleLib none [] idleHeap 0 0 0 false [] 0 none
      [stepOf 1, stepOf 2, stepOf 1] 2 (some "execution timeout") (by decide) (by decide)⟩

/-- The same run, evaluated: the tally is ADD:1, MUL:1. -/
theorem Stop_after_two_of_three :
    ∃ w, run sampleLib [.CaptureStart (some 0) 0 0 false [] 0 none, .CaptureState (stepOf 1),
        .CaptureState (stepOf 2), .Stop (some "execution timeout"), .CaptureState (stepOf 1)]
        (fresh none [] idleHeap) = .ok w
      ∧ w.t.counts = [("ADD", 1), ("MUL", 1)] ∧ w.t.reason = some "execution timeout"
      ∧ (w.evms 0).abort = true :=
  ⟨_, rfl, rfl, rfl, rfl⟩

/-! ## Reading the result -/

/-- C7: GetResult is a pure read.  It leaves the tally, the flag, the reason
and the handle (the whole tracer, and the engine instances) unchanged, and a
second GetResult right after the first returns the same encoded tally and the
same reason. -/
theorem GetResult_pure_read (L : Lib) (w : World) :
    (w.t.GetResult L).2 = w.t
      ∧ (w.t.GetResult L).2.counts = w.t.counts
      ∧ (w.t.GetResult L).2.interrupt = w.t.interrupt
      ∧ (w.t.GetResult L).2.reason = w.t.reason
      ∧ (w.t.GetResult L).2.env = w.t.env
      ∧ ((w.t.GetResult L).2.GetResult L).1 = (w.t.GetResult L).1
      ∧ step L w .GetResult = .ok w := by
  have h : (w.t.GetResult L).2 = w.t := GetResult_snd L w.t
  refine ⟨h, by rw [h], by rw [h], by rw [h], by rw [h], by rw [h], ?_⟩
  simp only [step, h]

/-- C8: a run that completes naturally reports no reason.  Every sequence of
listener callbacks (and GetResult reads) applied to a freshly constructed
tracer with no Stop call runs to its end, the flag is still unset and the
reason, stored and returned by GetResult, is nil. -/
theorem natural_completion_has_no_reason (L : Lib) (ctx : Ptr) (cfg : Bytes) (evms : Heap)
    (calls : List Call) (h : ∀ c ∈ calls, c.isStop = false) :
    ∃ w, run L calls (fresh ctx cfg evms) = .ok w
      ∧ w.t.interrupt = 0 ∧ w.t.reason = none ∧ (w.t.GetResult L).1.2 = none := by
  obtain ⟨w, hrun, hi, hr⟩ := run_running L calls (fresh ctx cfg evms) rfl h
  have hr1 : w.t.reason = none := hr
  refine ⟨w, hrun, hi, hr1, ?_⟩
  rw [GetResult_reason, hr1]

/-- A whole run of two instructions with a nested scope and a fault holds no
Stop: the hypothesis holds and the theorem applies. -/
theorem natural_completion_has_no_reason_witness :
    (∀ c ∈ [Call.CaptureTxStart 21000, .CaptureStart (some 0) 0 0 false [] 0 none,
          .CaptureState (stepOf 1), .CaptureEnter 241 0 0 [] 0 none, .CaptureState (stepOf 2),
          .CaptureExit [] 0 none, .CaptureFault 0 1 0 0 none 1 (some "out of gas"),
          .CaptureEnd [] 0 none, .CaptureTxEnd 0, .GetResult], c.isStop = false)
      ∧ ∃ w, run sampleLib [Call.CaptureTxStart 21000, .CaptureStart (some 0) 0 0 false [] 0 none,
          .CaptureState (stepOf 1), .CaptureEnter 241 0 0 [] 0 none, .CaptureState (stepOf 2),
          .CaptureExit [] 0 none, .CaptureFault 0 1 0 0 none 1 (some "out of gas"),
          .CaptureEnd [] 0 none, .CaptureTxEnd 0, .GetResult] (fresh none [] idleHeap) = .ok w
        ∧ w.t.interrupt = 0 ∧ w.t.reason = none ∧ (w.t.GetResult sampleLib).1.2 = none :=
  ⟨by simp [Call.isStop],
    natural_completion_has_no_reason sampleLib none [] idleHeap
      [Call.CaptureTxStart 21000, .CaptureStart (some 0) 0 0 false [] 0 none,
        .CaptureState (stepOf 1), .CaptureEnter 241 0 0 [] 0 none, .CaptureState (stepOf 2),
        .CaptureExit [] 0 none, .CaptureFault 0 1 0 0 none 1 (some "out of gas"),
        .CaptureEnd [] 0 none, .CaptureTxEnd 0, .GetResult]
      (by simp [Call.isStop])⟩

/-! ## The per-step callback of a cancelled tracer -/

/-- With the flag set and no handle captured, the per-step callback panics:
`t.env.Cancel()` is invoked through the nil handle. -/
theorem CaptureState_cancelled_nil (L : Lib) (t : opcounter) (evms : Heap) (ev : StepEvent)
    (h : t.interrupt > 0) (he : t.env = none) :
    t.CaptureState L evms ev.pc ev.op ev.gas ev.cost ev.scope ev.rData ev.depth ev.err
      = .error .nilDereference := by
  simp [opcounter.CaptureState, h, he, Heap.Cancel]

/-- C9 fails on the code: a tracer that is constructed and stopped before any
run-start has no engine handle, and its per-step callback then ends in a nil
dereference panic instead of skipping the count. -/
theorem CaptureState_panics_when_stopped_before_start :
    ((newOpcounter none []).1.Stop (some "execution timeout")).CaptureState sampleLib idleHeap
        0 1 0 0 none [] 1 none = .error .nilDereference
      ∧ run sampleLib [.Stop (some "execution timeout"), .CaptureState (stepOf 1)]
          (fresh none [] idleHeap) = .error .nilDereference :=
  ⟨rfl, rfl⟩

/-- C10: in every state whose flag is set and whose handle was captured, the
per-step callback returns, invokes the engine's abort command on the captured
handle (that instance's abort request is set afterwards, every other instance
is untouched) and leaves the tracer, so also the tally, exactly as it was.  In
every state whose flag is not set the callback leaves all engine instances
untouched: no abort is issued. -/
theorem CaptureState_aborts_exactly_when_cancelled (L : Lib) (t : opcounter) (evms : Heap)
    (a : Nat) (pc : Nat) (op : OpCode) (gas cost : Nat) (scope : Ptr) (rData : Bytes)
    (depth : Int) (err : GoError) :
    (0 < t.interrupt → t.env = some a →
        ∃ evms1, t.CaptureState L evms pc op gas cost scope rData depth err = .ok (t, evms1)
          ∧ evms1 a = (evms a).Cancel ∧ (evms1 a).abort = true
          ∧ ∀ b, b ≠ a → evms1 b = evms b)
      ∧ (t.interrupt = 0 →
        ∃ t1, t.CaptureState L evms pc op gas cost scope rData depth err = .ok (t1, evms)) := by
  constructor
  · intro h he
    refine ⟨fun b => if b = a then (evms a).Cancel else evms b,
      CaptureState_cancelled L t evms ⟨pc, op, gas, cost, scope, rData, depth, err⟩ a h he,
      by simp, by simp [EVM.Cancel], ?_⟩
    intro b hb
    simp [hb]
  · intro h
    exact ⟨_, CaptureState_running L t evms ⟨pc, op, gas, cost, scope, rData, depth, err⟩ h⟩

/-- A cancelled tracer holding the handle 7 and a running tracer: both
hypotheses hold and the theorem applies. -/
theorem CaptureState_aborts_exactly_when_cancelled_witness :
    (0 < (1 : Nat) ∧ (some 7 : Ptr) = some 7
        ∧ ∃ evms1, opcounter.CaptureState sampleLib
              { env := some 7, counts := [("ADD", 1)], interrupt := 1, reason := some "timeout" }
              idleHeap 3 2 100 5 none [] 1 none
            = .ok ({ env := some 7, counts := [("ADD", 1)], interrupt := 1,
                     reason := some "timeout" }, evms1)
          ∧ evms1 7 = (idleHeap 7).Cancel ∧ (evms1 7).abort = true
          ∧ ∀ b, b ≠ 7 → evms1 b = idleHeap b)
      ∧ ((0 : Nat) = 0
        ∧ ∃ t1, opcounter.CaptureState sampleLib
              { env := some 7, counts := [("ADD", 1)], interrupt := 0, reason := none }
              idleHeap 3 2 100 5 none [] 1 none
            = .ok (t1, idleHeap)) :=
  ⟨⟨by decide, rfl,
      (CaptureState_aborts_exactly_when_cancelled sampleLib
        { env := some 7, counts := [("ADD", 1)], interrupt := 1, reason := some "timeout" }
        idleHeap 7 3 2 100 5 none [] 1 none).1 (by decide) rfl⟩,
    ⟨rfl,
      (CaptureState_aborts_exactly_when_cancelled sampleLib
        { env := some 7, counts := [("ADD", 1)], interrupt := 0, reason := none }
        idleHeap 7 3 2 100 5 none [] 1 none).2 rfl⟩⟩

/-! ## Construction -/

/-- C11: construction never fails.  For every context pointer and every
configuration blob, `newOpcounter` returns a nil error and a tracer whose tally
is the empty mapping, whose flag is unset, whose reason is nil and whose handle
is nil; the result does not depend on the context or the blob. -/
theorem newOpcounter_never_fails (ctx : Ptr) (cfg : Bytes) :
    (newOpcounter ctx cfg).2 = none
      ∧ (newOpcounter ctx cfg).1.counts = []
      ∧ (∀ name, mapLookup (newOpcounter ctx cfg).1.counts name = none)
      ∧ (newOpcounter ctx cfg).1.interrupt = 0
      ∧ (newOpcounter ctx cfg).1.reason = none
      ∧ (newOpcounter ctx cfg).1.env = none
      ∧ newOpcounter ctx cfg = newOpcounter none [] :=
  ⟨rfl, rfl, fun _ => rfl, rfl, rfl, rfl, rfl⟩

/-! ## The callbacks that do no work -/

/-- C13: only the per-step callback performs work.  In every state and for
all arguments, scope-enter, scope-exit, fault, run-end, transaction-start and
transaction-end return the tracer they were given and leave the engine
instances alone, and run-start stores the handle it is given and leaves the
tally, the flag and the reason as they were. -/
theorem only_CaptureState_works (L : Lib) (w : World) (env : Ptr) (op : OpCode)
    (from_ to_ : Address) (create : Bool) (input output : Bytes) (pc gas cost gasUsed : Nat)
    (gasLimit restGas : Nat) (value : Option Int) (scope : Ptr) (depth : Int) (err : GoError) :
    w.t.CaptureEnter op from_ to_ input gas value = w.t
      ∧ w.t.CaptureExit output gasUsed err = w.t
      ∧ w.t.CaptureFault pc op gas cost scope depth err = w.t
      ∧ w.t.CaptureEnd output gasUsed err = w.t
      ∧ w.t.CaptureTxStart gasLimit = w.t
      ∧ w.t.CaptureTxEnd restGas = w.t
      ∧ step L w (.CaptureEnter op from_ to_ input gas value) = .ok w
      ∧ step L w (.CaptureExit output gasUsed err) = .ok w
      ∧ step L w (.CaptureFault pc op gas cost scope depth err) = .ok w
      ∧ step L w (.CaptureEnd output gasUsed err) = .ok w
      ∧ step L w (.CaptureTxStart gasLimit) = .ok w
      ∧ step L w (.CaptureTxEnd restGas) = .ok w
      ∧ (w.t.CaptureStart env from_ to_ create input gas value).env = env
      ∧ (w.t.CaptureStart env from_ to_ create input gas value).counts = w.t.counts
      ∧ (w.t.CaptureStart env from_ to_ create input gas value).interrupt = w.t.interrupt
      ∧ (w.t.CaptureStart env from_ to_ create input gas value).reason = w.t.reason
      ∧ step L w (.CaptureStart env from_ to_ create input gas value)
          = .ok { t := { w.t with env := env }, evms := w.evms } :=
  ⟨rfl, rfl, rfl, rfl, rfl, rfl, rfl, rfl, rfl, rfl, rfl, rfl, rfl, rfl, rfl, rfl, rfl⟩

/-! ## One counted step -/

/-- C14, as stated, fails: on a 64-bit build, in a state whose flag is not set
and whose count of ADD is the largest value of `int`, 2^63 - 1, the per-step
callback for ADD returns and leaves the count -2^63, not the previous count
plus one. -/
theorem CaptureState_wraps_at_largest_count :
    ∃ t1, opcounter.CaptureState sampleLib
          { env := none, counts := [("ADD", 9223372036854775807)], interrupt := 0,
            reason := none }
          idleHeap 0 1 0 0 none [] 1 none = .ok (t1, idleHeap)
      ∧ mapLookup t1.counts (sampleLib.opString 1) = some (-9223372036854775808)
      ∧ mapLookup t1.counts (sampleLib.opString 1)
          ≠ some (mapIndex [("ADD", 9223372036854775807)] (sampleLib.opString 1) + 1) :=
  ⟨_, rfl, rfl, by decide⟩

/-- C14, amended: in every state whose flag is not set and for every opcode,
the per-step callback returns; in the tally it leaves, the entry of the
opcode's kind is its previous count plus one in the arithmetic of Go's `int`
(the previous count read as zero when the kind had no entry), which is exactly
the previous count plus one whenever the previous count is a value of `int`
other than the largest; the entry of every other kind is exactly as before, and
the flag, the reason, the handle and the engine instances are unchanged. -/
theorem CaptureState_counts_one (L : Lib) (t : opcounter) (evms : Heap) (pc : Nat)
    (op : OpCode) (gas cost : Nat) (scope : Ptr) (rData : Bytes) (depth : Int) (err : GoError)
    (h : t.interrupt = 0) :
    ∃ t1, t.CaptureState L evms pc op gas cost scope rData depth err = .ok (t1, evms)
      ∧ mapLookup t1.counts (L.opString op)
          = some (wrapInt L (mapIndex t.counts (L.opString op) + 1))
      ∧ (-(L.intHalf : Int) ≤ mapIndex t.counts (L.opString op)
          → mapIndex t.counts (L.opString op) + 1 < (L.intHalf : Int)
          → mapLookup t1.counts (L.opString op)
              = some (mapIndex t.counts (L.opString op) + 1))
      ∧ (∀ key, key ≠ L.opString op → mapLookup t1.counts key = mapLookup t.counts key)
      ∧ t1.interrupt = t.interrupt ∧ t1.reason = t.reason ∧ t1.env = t.env := by
  have hl : mapLookup (counted L t.counts op) (L.opString op)
      = some (wrapInt L (mapIndex t.counts (L.opString op) + 1)) := by
    rw [mapLookup_counted]
    simp
  refine ⟨{ t with counts := counted L t.counts op },
    CaptureState_running L t evms ⟨pc, op, gas, cost, scope, rData, depth, err⟩ h,
    hl, ?_, ?_, rfl, rfl, rfl⟩
  · intro hlo hhi
    show mapLookup (counted L t.counts op) (L.opString op) = _
    rw [hl, wrapInt_eq L _ (by omega) hhi]
  · intro key hkey
    show mapLookup (counted L t.counts op) key = _
    rw [mapLookup_counted]
    have hne : ¬ L.opString op = key := fun e => hkey e.symm
    simp [hne]

/-- A running tracer holding ADD:2, MUL:1 is sent a MUL on a 64-bit build: the
flag is not set and the count of MUL is far from the largest value, so the
hypotheses hold, and the theorem takes MUL to 2. -/
theorem CaptureState_counts_one_witness :
    (0 : Nat) = 0
      ∧ -(sampleLib.intHalf : Int) ≤ mapIndex [("ADD", 2), ("MUL", 1)] (sampleLib.opString 2)
      ∧ mapIndex [("ADD", 2), ("MUL", 1)] (sampleLib.opString 2) + 1 < (sampleLib.intHalf : Int)
      ∧ ∃ t1, opcounter.CaptureState sampleLib
              { env := some 7, counts := [("ADD", 2), ("MUL", 1)], interrupt := 0,
                reason := none }
              idleHeap 3 2 100 5 none [] 1 none = .ok (t1, idleHeap)
          ∧ mapLookup t1.counts (sampleLib.opString 2)
              = some (mapIndex [("ADD", 2), ("MUL", 1)] (sampleLib.opString 2) + 1)
          ∧ (∀ key, key ≠ sampleLib.opString 2
              → mapLookup t1.counts key = mapLookup [("ADD", 2), ("MUL", 1)] key)
          ∧ t1.interrupt = 0 ∧ t1.reason = none ∧ t1.env = some 7 := by
  refine ⟨rfl, by decide, by decide, ?_⟩
  obtain ⟨t1, hrun, _, hexact, hframe, hi, hr, he⟩ :=
    CaptureState_counts_one sampleLib
      { env := some 7, counts := [("ADD", 2), ("MUL", 1)], interrupt := 0, reason := none }
      idleHeap 3 2 100 5 none [] 1 none rfl
  exact ⟨t1, hrun, hexact (by decide) (by decide), hframe, hi, hr, he⟩

/-! ## Cancelled is terminal -/

/-- C15: Cancelled is a terminal state.  From every state whose flag is set, no
single operation that returns (any callback, a new run-start included, any
Stop, any GetResult) and no sequence of operations leaves the flag unset; the
operations other than the per-step callback always return. -/
theorem cancelled_is_terminal (L : Lib) (w : World) (hflag : 0 < w.t.interrupt) :
    (∀ c w1, step L w c = .ok w1 → 0 < w1.t.interrupt)
      ∧ (∀ calls w1, run L calls w = .ok w1 → 0 < w1.t.interrupt)
      ∧ (∀ c, (∀ ev, c ≠ .CaptureState ev) → ∃ w1, step L w c = .ok w1
          ∧ 0 < w1.t.interrupt) := by
  have hrun : ∀ calls w1, run L calls w = .ok w1 → 0 < w1.t.interrupt :=
    fun calls w1 h => (run_cancelled_frame L calls w w1 hflag h).2
  have hstep : ∀ c w1, step L w c = .ok w1 → 0 < w1.t.interrupt := by
    intro c w1 h
    exact hrun [c] w1 (by simp only [run, h])
  refine ⟨hstep, hrun, ?_⟩
  intro c hc
  cases c with
  | CaptureState ev => exact absurd rfl (hc ev)
  | Stop r => exact ⟨_, rfl, hstep (.Stop r) _ rfl⟩
  | GetResult => exact ⟨_, rfl, hstep .GetResult _ rfl⟩
  | CaptureStart env f t2 cr inp g v =>
    exact ⟨_, rfl, hstep (.CaptureStart env f t2 cr inp g v) _ rfl⟩
  | CaptureEnter op f t2 inp g v => exact ⟨_, rfl, hstep (.CaptureEnter op f t2 inp g v) _ rfl⟩
  | CaptureExit o g e => exact ⟨_, rfl, hstep (.CaptureExit o g e) _ rfl⟩
  | CaptureFault pc op g co sc d e =>
    exact ⟨_, rfl, hstep (.CaptureFault pc op g co sc d e) _ rfl⟩
  | CaptureEnd o g e => exact ⟨_, rfl, hstep (.CaptureEnd o g e) _ rfl⟩
  | CaptureTxStart g => exact ⟨_, rfl, hstep (.CaptureTxStart g) _ rfl⟩
  | CaptureTxEnd g => exact ⟨_, rfl, hstep (.CaptureTxEnd g) _ rfl⟩

/-- A cancelled tracer is sent a new run-start, a per-step event, a Stop with a
nil reason and a GetResult: the hypothesis holds, the run returns and the flag
is still set. -/
theorem cancelled_is_terminal_witness :
    0 < (1 : Nat)
      ∧ run sampleLib [.CaptureStart (some 3) 0 0 false [] 0 none, .CaptureState (stepOf 1),
            .Stop none, .GetResult]
          { t := { env := none, counts := [("ADD", 1)], interrupt := 1,
                   reason := some "execution timeout" },
            evms := idleHeap }
        = .ok { t := { env := some 3, counts := [("ADD", 1)], interrupt := 1, reason := none },
                evms := fun b => if b = 3 then (idleHeap 3).Cancel else idleHeap b }
      ∧ 0 < (1 : Nat) :=
  ⟨by decide, rfl,
    (cancelled_is_terminal sampleLib
      { t := { env := none, counts := [("ADD", 1)], interrupt := 1,
               reason := some "execution timeout" },
        evms := idleHeap } (by decide)).2.1
      [.CaptureStart (some 3) 0 0 false [] 0 none, .CaptureState (stepOf 1), .Stop none,
        .GetResult]
      { t := { env := some 3, counts := [("ADD", 1)], interrupt := 1, reason := none },
        evms := fun b => if b = 3 then (idleHeap 3).Cancel else idleHeap b }
      rfl⟩

/-! ## The per-step callback reads only the opcode -/

/-- C17: counting is flat, scope-agnostic and fault-agnostic.  In every state,
two per-step calls that carry the same opcode give the same outcome (the same
tracer and the same engine instances, or the same panic) whatever their program
counter, gas, cost, scope, return data, depth and fault error are; and a
counted step leaves the tally that depends on the old tally and the opcode
alone. -/
theorem CaptureState_reads_only_the_opcode (L : Lib) (t : opcounter) (evms : Heap)
    (op : OpCode) (pc gas cost : Nat) (scope : Ptr) (rData : Bytes) (depth : Int)
    (err : GoError) (pc2 gas2 cost2 : Nat) (scope2 : Ptr) (rData2 : Bytes) (depth2 : Int)
    (err2 : GoError) :
    t.CaptureState L evms pc op gas cost scope rData depth err
        = t.CaptureState L evms pc2 op gas2 cost2 scope2 rData2 depth2 err2
      ∧ step L { t := t, evms := evms }
            (.CaptureState ⟨pc, op, gas, cost, scope, rData, depth, err⟩)
          = step L { t := t, evms := evms }
            (.CaptureState ⟨pc2, op, gas2, cost2, scope2, rData2, depth2, err2⟩) :=
  ⟨rfl, rfl⟩

/-! ## The keys of the tally -/

theorem mapLookup_eq_none_iff (m : Counts) (k : String) :
    mapLookup m k = none ↔ k ∉ m.map Prod.fst := by
  induction m with
  | nil => simp [mapLookup]
  | cons e m ih =>
    obtain ⟨k0, x⟩ := e
    by_cases h0 : k0 = k
    · simp [mapLookup, h0]
    · have h1 : ¬ k = k0 := fun h => h0 h.symm
      simp [mapLookup, h0, h1, ih]

theorem mapLookup_mem (m : Counts) (k : String) (v : Int) (h : mapLookup m k = some v) :
    (k, v) ∈ m := by
  induction m with
  | nil => simp [mapLookup] at h
  | cons e m ih =>
    obtain ⟨k0, x⟩ := e
    by_cases h0 : k0 = k
    · simp [mapLookup, h0] at h
      simp [h0, h]
    · simp [mapLookup, h0] at h
      exact List.mem_cons_of_mem _ (ih h)

theorem mapLookup_of_mem (m : Counts) (k : String) (v : Int)
    (hnd : (m.map Prod.fst).Nodup) (h : (k, v) ∈ m) : mapLookup m k = some v := by
  induction m with
  | nil => simp at h
  | cons e m ih =>
    obtain ⟨k0, x⟩ := e
    simp only [List.map_cons, List.nodup_cons] at hnd
    rcases List.mem_cons.mp h with h1 | h1
    · simp only [Prod.mk.injEq] at h1
      simp [mapLookup, h1.1, h1.2]
    · have hk : k ∈ m.map Prod.fst := List.mem_map.mpr ⟨(k, v), h1, rfl⟩
      have h0 : ¬ k0 = k := fun e => hnd.1 (e ▸ hk)
      simp [mapLookup, h0, ih hnd.2 h1]

theorem mem_mapAssign (m : Counts) (k : String) (v : Int) (p : String × Int)
    (h : p ∈ mapAssign m k v) : p ∈ m ∨ p = (k, v) := by
  induction m with
  | nil =>
    simp [mapAssign] at h
    exact Or.inr h
  | cons e m ih =>
    obtain ⟨k0, x⟩ := e
    by_cases h0 : k0 = k
    · simp only [mapAssign, h0, if_true, List.mem_cons] at h
      rcases h with h | h
      · exact Or.inr h
      · exact Or.inl (List.mem_cons_of_mem _ h)
    · simp only [mapAssign, h0, if_false, List.mem_cons] at h
      rcases h with h | h
      · exact Or.inl (h ▸ List.mem_cons_self _ _)
      · rcases ih h with h1 | h1
        · exact Or.inl (List.mem_cons_of_mem _ h1)
        · exact Or.inr h1

theorem keys_mapAssign (m : Counts) (k : String) (v : Int) :
    (mapAssign m k v).map Prod.fst
      = if (mapLookup m k).isSome then m.map Prod.fst else m.map Prod.fst ++ [k] := by
  induction m with
  | nil => simp [mapAssign, mapLookup]
  | cons e m ih =>
    obtain ⟨k0, x⟩ := e
    by_cases h0 : k0 = k
    · simp [mapAssign, mapLookup, h0]
    · simp only [mapAssign, mapLookup, h0, if_false, List.map_cons, ih]
      split <;> simp

/-- One counted step puts no key into the tally twice. -/
theorem nodupKeys_counted (L : Lib) (m : Counts) (op : OpCode)
    (hnd : (m.map Prod.fst).Nodup) : ((counted L m op).map Prod.fst).Nodup := by
  unfold counted
  cases hm : mapLookup m (L.opString op) with
  | some v =>
    simp only [hm, Option.isSome_some, if_true]
    rw [keys_mapAssign]
    simpa [hm] using hnd
  | none =>
    have hnotin : L.opString op ∉ m.map Prod.fst := (mapLookup_eq_none_iff m _).mp hm
    have hl1 : mapLookup (mapAssign m (L.opString op) 0) (L.opString op) = some 0 := by
      simp [mapLookup_mapAssign]
    have hk1 : (mapAssign m (L.opString op) 0).map Prod.fst
        = m.map Prod.fst ++ [L.opString op] := by
      rw [keys_mapAssign]
      simp [hm]
    simp only [hm, Option.isSome_none, Bool.false_eq_true, if_false]
    rw [keys_mapAssign, hl1, hk1]
    simp only [Option.isSome_some, if_true]
    exact List.Nodup.append hnd (List.nodup_singleton _) (by simpa using hnotin)

theorem nodupKeys_tally (L : Lib) (evs : List StepEvent) (m : Counts)
    (hnd : (m.map Prod.fst).Nodup) : ((tally L m evs).map Prod.fst).Nodup := by
  induction evs generalizing m with
  | nil => exact hnd
  | cons ev evs ih => exact ih _ (nodupKeys_counted L m ev.op hnd)

/-- The tally of a state reached from a state whose flag is not set: the events
before the first Stop, counted. -/
theorem run_counts (L : Lib) (calls : List Call) (w w1 : World) (h0 : w.t.interrupt = 0)
    (h : run L calls w = .ok w1) :
    w1.t.counts = tally L w.t.counts (countedEvents calls) := by
  induction calls generalizing w with
  | nil =>
    simp only [run, Except.ok.injEq] at h
    subst h
    rfl
  | cons c cs ih =>
    cases c with
    | Stop r =>
      simp only [run, step] at h
      exact (run_cancelled_frame L cs _ w1 Nat.one_pos h).1
    | CaptureState ev =>
      simp only [run, step, CaptureState_running L w.t w.evms ev h0] at h
      exact ih { t := { w.t with counts := counted L w.t.counts ev.op }, evms := w.evms } h0 h
    | GetResult =>
      simp only [run, step_GetResult] at h
      exact ih w h0 h
    | CaptureStart env f t2 cr inp g v =>
      exact ih (World.mk (w.t.CaptureStart env f t2 cr inp g v) w.evms) h0
        (by simpa only [run, step] using h)
    | CaptureEnter op f t2 inp g v => exact ih _ h0 (by simpa only [run, step] using h)
    | CaptureExit o g e => exact ih _ h0 (by simpa only [run, step] using h)
    | CaptureFault pc op g co sc d e => exact ih _ h0 (by simpa only [run, step] using h)
    | CaptureEnd o g e => exact ih _ h0 (by simpa only [run, step] using h)
    | CaptureTxStart g => exact ih _ h0 (by simpa only [run, step] using h)
    | CaptureTxEnd g => exact ih _ h0 (by simpa only [run, step] using h)

/-- C16, as stated, fails: on a 64-bit build, 2^63 ADD events in a row are
all delivered to a fresh tracer and counted, and the state reached holds the
entry ADD: -2^63, a stored count below one. -/
theorem count_below_one_after_too_many_events :
    ∃ w, run sampleLib ((List.replicate 9223372036854775808 (stepOf 1)).map Call.CaptureState)
          (fresh none [] idleHeap) = .ok w
      ∧ (("ADD", -9223372036854775808) : String × Int) ∈ w.t.counts
      ∧ ∃ p ∈ w.t.counts, ¬ 1 ≤ p.2 := by
  obtain ⟨w, hrun, hl⟩ := run_replicate_ADD 9223372036854775808 (by decide)
  have hw : wrapInt sampleLib ((9223372036854775808 : Nat) : Int) = -9223372036854775808 := by
    decide
  rw [hw] at hl
  have hmem := mapLookup_mem w.t.counts "ADD" _ hl
  exact ⟨w, hrun, hmem, _, hmem, by decide⟩

/-- C16, amended: keys are created on first occurrence and only then.  In
every state reached from the constructor by callbacks, Stop calls and GetResult
reads, a kind is a key of the tally exactly when at least one per-step event of
that kind was counted (delivered before the first Stop), no key occurs twice,
and the count stored for a key is the number of those events reduced to the
range of Go's `int` by wrap-around; so every stored count whose kind was
counted fewer than 2^(w-1) times, `w` the width of `int`, is that number and
at least one. -/
theorem keys_created_on_first_count (L : Lib) (ctx : Ptr) (cfg : Bytes) (evms : Heap)
    (calls : List Call) (w : World) (h : run L calls (fresh ctx cfg evms) = .ok w) :
    (∀ name, name ∈ w.t.counts.map Prod.fst
        ↔ 0 < occurrences L (countedEvents calls) name)
      ∧ (w.t.counts.map Prod.fst).Nodup
      ∧ (∀ p ∈ w.t.counts,
          0 < occurrences L (countedEvents calls) p.1
            ∧ p.2 = wrapInt L (occurrences L (countedEvents calls) p.1 : Int)
            ∧ (occurrences L (countedEvents calls) p.1 < L.intHalf
                → p.2 = (occurrences L (countedEvents calls) p.1 : Int) ∧ 1 ≤ p.2)) := by
  have hc : w.t.counts = tally L [] (countedEvents calls) :=
    run_counts L calls (fresh ctx cfg evms) w rfl h
  have hl : ∀ name, mapLookup w.t.counts name
      = if occurrences L (countedEvents calls) name = 0 then none
        else some (wrapInt L (occurrences L (countedEvents calls) name : Int)) := by
    intro name
    rw [hc, mapLookup_tally]
    simp [mapIndex, mapLookup]
  have hnd : (w.t.counts.map Prod.fst).Nodup := by
    rw [hc]
    exact nodupKeys_tally L _ [] (by simp)
  refine ⟨?_, hnd, ?_⟩
  · intro name
    have h1 := mapLookup_eq_none_iff w.t.counts name
    rw [hl name] at h1
    by_cases h0 : occurrences L (countedEvents calls) name = 0
    · simp only [h0, if_true, true_iff] at h1
      simp [h0, h1]
    · have hin : name ∈ w.t.counts.map Prod.fst := by
        by_contra hn
        have h2 := h1.mpr hn
        simp [h0] at h2
      exact ⟨fun _ => Nat.pos_of_ne_zero h0, fun _ => hin⟩
  · intro p hp
    have hv := mapLookup_of_mem w.t.counts p.1 p.2 hnd hp
    rw [hl p.1] at hv
    by_cases h0 : occurrences L (countedEvents calls) p.1 = 0
    · simp [h0] at hv
    · simp only [h0, if_false, Option.some.injEq] at hv
      have hpos : 0 < occurrences L (countedEvents calls) p.1 := Nat.pos_of_ne_zero h0
      refine ⟨hpos, hv.symm, ?_⟩
      intro hlt
      have h3 : ((occurrences L (countedEvents calls) p.1 : Nat) : Int) < (L.intHalf : Int) := by
        exact_mod_cast hlt
      have h4 : (1 : Int) ≤ ((occurrences L (countedEvents calls) p.1 : Nat) : Int) := by
        exact_mod_cast hpos
      have h5 := intHalf_pos L
      have hw := wrapInt_eq L _ (by omega) h3
      rw [hw] at hv
      exact ⟨hv.symm, hv ▸ h4⟩

/-- The run run-start, ADD, MUL, fault, Stop, ADD on a 64-bit build reaches the
tally ADD:1, MUL:1: the hypothesis holds and the theorem applies. -/
theorem keys_created_on_first_count_witness :
    run sampleLib [.CaptureStart (some 0) 0 0 false [] 0 none, .CaptureState (stepOf 1),
          .CaptureState (stepOf 2), .CaptureFault 0 3 0 0 none 1 (some "out of gas"),
          .Stop (some "execution timeout"), .CaptureState (stepOf 1)] (fresh none [] idleHeap)
        = .ok { t := { env := some 0, counts := [("ADD", 1), ("MUL", 1)], interrupt := 1,
                       reason := some "execution timeout" },
                evms := fun b => if b = 0 then (idleHeap 0).Cancel else idleHeap b }
      ∧ (∀ name, name ∈ ([("ADD", 1), ("MUL", 1)] : Counts).map Prod.fst
          ↔ 0 < occurrences sampleLib (countedEvents
              [.CaptureStart (some 0) 0 0 false [] 0 none, .CaptureState (stepOf 1),
                .CaptureState (stepOf 2), .CaptureFault 0 3 0 0 none 1 (some "out of gas"),
                .Stop (some "execution timeout"), .CaptureState (stepOf 1)]) name)
      ∧ (([("ADD", 1), ("MUL", 1)] : Counts).map Prod.fst).Nodup
      ∧ (∀ p ∈ ([("ADD", 1), ("MUL", 1)] : Counts),
          0 < occurrences sampleLib (countedEvents
              [.CaptureStart (some 0) 0 0 false [] 0 none, .CaptureState (stepOf 1),
                .CaptureState (stepOf 2), .CaptureFault 0 3 0 0 none 1 (some "out of gas"),
                .Stop (some "execution timeout"), .CaptureState (stepOf 1)]) p.1
            ∧ p.2 = wrapInt sampleLib (occurrences sampleLib (countedEvents
              [.CaptureStart (some 0) 0 0 false [] 0 none, .CaptureState (stepOf 1),
                .CaptureState (stepOf 2), .CaptureFault 0 3 0 0 none 1 (some "out of gas"),
                .Stop (some "execution timeout"), .CaptureState (stepOf 1)]) p.1 : Int)
            ∧ (occurrences sampleLib (countedEvents
              [.CaptureStart (some 0) 0 0 false [] 0 none, .CaptureState (stepOf 1),
                .CaptureState (stepOf 2), .CaptureFault 0 3 0 0 none 1 (some "out of gas"),
                .Stop (some "execution timeout"), .CaptureState (stepOf 1)]) p.1
                  < sampleLib.intHalf
                → p.2 = (occurrences sampleLib (countedEvents
                    [.CaptureStart (some 0) 0 0 false [] 0 none, .CaptureState (stepOf 1),
                      .CaptureState (stepOf 2),
                      .CaptureFault 0 3 0 0 none 1 (some "out of gas"),
                      .Stop (some "execution timeout"), .CaptureState (stepOf 1)]) p.1 : Int)
                  ∧ 1 ≤ p.2)) :=
  ⟨rfl,
    keys_created_on_first_count sampleLib none [] idleHeap
      [.CaptureStart (some 0) 0 0 false [] 0 none, .CaptureState (stepOf 1),
        .CaptureState (stepOf 2), .CaptureFault 0 3 0 0 none 1 (some "out of gas"),
        .Stop (some "execution timeout"), .CaptureState (stepOf 1)]
      { t := { env := some 0, counts := [("ADD", 1), ("MUL", 1)], interrupt := 1,
               reason := some "execution timeout" },
        evms := fun b => if b = 0 then (idleHeap 0).Cancel else idleHeap b }
      rfl⟩

/-! ## The encoded result -/

/-- The encoder does refuse maps: one that holds a channel is answered with an
error, not with an encoding. -/
theorem marshalMap_refuses_chan (L : Lib) :
    marshalMap L [("a", .int 1), ("b", .chan)] = .error "json: unsupported type: chan" := by
  have hs : ([("a", GoValue.int 1), ("b", GoValue.chan)].insertionSort keyLE)
      = [("a", .int 1), ("b", .chan)] := by decide
  simp [marshalMap, hs, marshalMembers, marshalValue]

/-- C18: the serialization failure of GetResult never occurs for this tracer.
In every state `json.Marshal` encodes the tally, since every value the map
holds is an integer, and GetResult returns that encoding together with exactly
the stored reason: the returned error is non-nil exactly when the stored
reason is, and a cancelled tracer gets its partial tally next to the reason.
The encoding is the object of the members `"key":count` in the order of their
keys, joined by commas, between braces: it is not empty and the member of
every entry of the tally occurs in it.  On a cancelled tracer holding MUL:1,
ADD:2 the result is the text that reads ADD:2, MUL:1 as a JSON object, with
the reason. -/
theorem GetResult_always_encodes (L : Lib) (t : opcounter) :
    (∃ res, jsonMarshal L t.counts = .ok res
      ∧ (t.GetResult L).1 = (some res, t.reason)
      ∧ res = [0x7b] ++ joinMembers ((t.counts.insertionSort keyLE).map (encodeMember L))
          ++ [0x7d]
      ∧ res ≠ [] ∧ res.head? = some 0x7b ∧ res.getLast? = some 0x7d
      ∧ (∀ kv ∈ t.counts, encodeMember L kv <:+: res)
      ∧ ((t.GetResult L).1.2 ≠ none ↔ t.reason ≠ none))
      ∧ (opcounter.GetResult sampleLib
            { env := some 0, counts := [("MUL", 1), ("ADD", 2)], interrupt := 1,
              reason := some "execution timeout" }).1
          = (some [0x7b, 0x22, 0x41, 0x44, 0x44, 0x22, 0x3a, 0x32, 0x2c,
                   0x22, 0x4d, 0x55, 0x4c, 0x22, 0x3a, 0x31, 0x7d],
             some "execution timeout")
      ∧ ((newOpcounter none []).1.GetResult sampleLib).1 = (some [0x7b, 0x7d], none) := by
  refine ⟨⟨_, jsonMarshal_eq L t.counts, by rw [GetResult_eq], rfl, by simp, by simp,
    List.getLast?_concat _, ?_, by rw [GetResult_reason]⟩, by decide, by decide⟩
  intro kv hkv
  have h1 : kv ∈ t.counts.insertionSort keyLE :=
    (List.perm_insertionSort keyLE t.counts).mem_iff.mpr hkv
  have h2 : encodeMember L kv ∈ (t.counts.insertionSort keyLE).map (encodeMember L) :=
    List.mem_map_of_mem _ h1
  exact (infix_joinMembers _ _ h2).trans (List.infix_append _ _ _)

end Opcounter
